import Mathlib

/-!
# Refer-Grow: verification of the binary placement and compensation core

A shallow embedding of the Refer-Grow referral platform's compensation core:
the binary-placement search (`findBinaryPlacement` in `backend/src/lib/db.ts`),
the member schema's partial uniqueness index (`backend/src/models/User.ts`),
the distribution-rule admin routes, the service legacy-field synchronization
hook (`backend/src/models/Service.ts`), the registration handler, and the
purchase/BV-distribution transaction.

Mongo documents are modelled as Lean structures, collections as lists, the
BFS placement loop as a fuel-indexed recursion (the fuel is a modelling
artifact; a theorem shows the supplied fuel is never exhausted), and the
database's conditional writes as explicit list transformations.
-/

namespace ReferGrow

/-- Binary slot position, `BinaryPosition` in `backend/src/lib/db.ts`. -/
inductive BinaryPosition
  | left
  | right
deriving DecidableEq, Repr

instance : Fintype BinaryPosition :=
  ⟨⟨{BinaryPosition.left, BinaryPosition.right}, by decide⟩, by intro x; cases x <;> decide⟩

/-- A member document (`User` model): `_id`, `parent` back-reference,
binary `position` under the parent, and `createdAt` timestamp. -/
structure MemberNode where
  id : Nat
  parent : Option Nat
  position : Option BinaryPosition
  createdAt : Nat
deriving DecidableEq, Repr

/-- The user collection. -/
abbrev Store := List MemberNode

/-- Embeds `UserModel.find({ parent: parentId }).sort({ createdAt: 1 })`:
the direct children of `p`, ordered by creation time (stable sort). -/
def childrenOf (s : Store) (p : Nat) : List MemberNode :=
  List.insertionSort (fun a b => a.createdAt ≤ b.createdAt)
    (s.filter (fun n => n.parent = some p))

/-- The loop over `children` setting `leftChildId` / `rightChildId`:
the last child carrying the given position, if any. -/
def lastChildWith (children : List MemberNode) (pos : BinaryPosition) : Option Nat :=
  children.foldl (fun acc c => if c.position = some pos then some c.id else acc) none

/-- Ids of the children without a position (legacy data), in creation order. -/
def unpositionedOf (children : List MemberNode) : List Nat :=
  (children.filter (fun c => c.position = none)).map (fun c => c.id)

/-- Embeds `UserModel.updateOne({ _id: target, position: null }, { $set: { position } })`:
set `position` on the first document matching both the id and the
`position == null` guard; all other documents are untouched. -/
def setPositionFirst (s : Store) (target : Nat) (pos : BinaryPosition) : Store :=
  match s with
  | [] => []
  | n :: rest =>
    if n.id = target ∧ n.position = none then { n with position := some pos } :: rest
    else n :: setPositionFirst rest target pos

/-- One backfill step (`if (!leftChildId && unpositioned.length > 0) ...`):
when the slot has no positioned child and an unpositioned child remains,
assign that child the slot via the guarded conditional update. -/
def backfillOne (s : Store) (existing : Option Nat) (u : List Nat) (pos : BinaryPosition) :
    Store × Option Nat × List Nat :=
  match existing with
  | some i => (s, some i, u)
  | none =>
    match u with
    | [] => (s, none, [])
    | t :: rest => (setPositionFirst s t pos, some t, rest)

/-- Result of processing one dequeued parent in the placement loop. -/
structure StepOut where
  store : Store
  missing : Option BinaryPosition
  enqueue : List Nat
deriving DecidableEq, Repr

/-- The body of the `while` loop of `findBinaryPlacement` for one dequeued
parent `p`: read the children, backfill legacy unpositioned children
(first to `left`, second to `right`), report the first missing slot
(left before right), and list the children to enqueue (left, right, then
leftover unpositioned in creation order). -/
def processNode (s : Store) (p : Nat) : StepOut :=
  let children := childrenOf s p
  let step1 := backfillOne s (lastChildWith children .left) (unpositionedOf children) .left
  let step2 := backfillOne step1.1 (lastChildWith children .right) step1.2.2 .right
  { store := step2.1
    missing :=
      if step1.2.1 = none then some .left
      else if step2.2.1 = none then some .right
      else none
    enqueue := step1.2.1.toList ++ step2.2.1.toList ++ step2.2.2 }

/-- Outcome of the placement search. `outOfFuel` is a modelling artifact of
the fuel-indexed recursion; the code's `while` loop has no such outcome and
`runAux_no_outOfFuel` shows the fuel supplied by `findBinaryPlacement` is
never exhausted. -/
inductive PlacementResult
  | found (parentId : Nat) (position : BinaryPosition)
  | limitExceeded
  | noPlacement
  | outOfFuel
deriving DecidableEq, Repr

/-- The constant `MAX_VISITS` of `findBinaryPlacement`. -/
def MAX_VISITS : Nat := 200000

/-- The BFS loop of `findBinaryPlacement`: dequeue, skip if visited, abort
with the safe-limit error when the visited count exceeds `MAX_VISITS`,
otherwise process the node and either return its open slot or enqueue its
children. The visited set is a list to which only unseen ids are pushed,
so its length is the visited-set size. -/
def runAux : Nat → Store → List Nat → List Nat → PlacementResult × Store
  | 0, s, _, _ => (.outOfFuel, s)
  | _ + 1, s, [], _ => (.noPlacement, s)
  | fuel + 1, s, p :: rest, visited =>
    if p ∈ visited then runAux fuel s rest visited
    else
      if MAX_VISITS < (p :: visited).length then (.limitExceeded, s)
      else
        let step := processNode s p
        match step.missing with
        | some pos => (.found p pos, step.store)
        | none => runAux fuel step.store (rest ++ step.enqueue) (p :: visited)

/-- Fuel that `runAux_no_outOfFuel` proves sufficient for any store. -/
def placementFuel (s : Store) : Nat := s.length + 2

/-- Embeds `findBinaryPlacement({ sponsorId })`: BFS from the sponsor, returning the
result together with the store (the backfill updates persist). -/
def findBinaryPlacement (s : Store) (sponsorId : Nat) : PlacementResult × Store :=
  runAux (placementFuel s) s [sponsorId] []

/-! ## Basic lemmas about the store operations -/

theorem setPositionFirst_map_id (s : Store) (t : Nat) (pos : BinaryPosition) :
    (setPositionFirst s t pos).map (fun n => n.id) = s.map (fun n => n.id) := by
  induction s with
  | nil => rfl
  | cons n rest ih =>
    by_cases h : n.id = t ∧ n.position = none
    · simp [setPositionFirst, h]
    · simp [setPositionFirst, h, ih]

theorem setPositionFirst_length (s : Store) (t : Nat) (pos : BinaryPosition) :
    (setPositionFirst s t pos).length = s.length := by
  have h := congrArg List.length (setPositionFirst_map_id s t pos)
  simpa using h

theorem mem_setPositionFirst_of_positioned {s : Store} {n : MemberNode} {q : BinaryPosition}
    (hn : n ∈ s) (hq : n.position = some q) (t : Nat) (pos : BinaryPosition) :
    n ∈ setPositionFirst s t pos := by
  induction s with
  | nil => cases hn
  | cons m rest ih =>
    by_cases h : m.id = t ∧ m.position = none
    · rcases List.mem_cons.mp hn with rfl | hn'
      · rw [h.2] at hq; cases hq
      · rw [setPositionFirst, if_pos h]
        exact List.mem_cons_of_mem _ hn'
    · rcases List.mem_cons.mp hn with rfl | hn'
      · simp [setPositionFirst, h]
      · simp [setPositionFirst, h, ih hn']

theorem mem_setPositionFirst_of_id_ne {s : Store} {n : MemberNode}
    (hn : n ∈ s) {t : Nat} (hne : n.id ≠ t) (pos : BinaryPosition) :
    n ∈ setPositionFirst s t pos := by
  induction s with
  | nil => cases hn
  | cons m rest ih =>
    by_cases h : m.id = t ∧ m.position = none
    · rcases List.mem_cons.mp hn with rfl | hn'
      · exact absurd h.1 hne
      · simp [setPositionFirst, h, hn']
    · rcases List.mem_cons.mp hn with rfl | hn'
      · simp [setPositionFirst, h]
      · simp [setPositionFirst, h, ih hn']

theorem mem_of_mem_setPositionFirst {s : Store} {t : Nat} {pos : BinaryPosition} {m : MemberNode}
    (hm : m ∈ setPositionFirst s t pos) :
    m ∈ s ∨ ∃ n ∈ s, n.id = t ∧ n.position = none ∧ m = { n with position := some pos } := by
  induction s with
  | nil => cases hm
  | cons n rest ih =>
    by_cases h : n.id = t ∧ n.position = none
    · rw [setPositionFirst, if_pos h] at hm
      rcases List.mem_cons.mp hm with rfl | hm'
      · exact Or.inr ⟨n, List.mem_cons_self .., h.1, h.2, rfl⟩
      · exact Or.inl (List.mem_cons_of_mem _ hm')
    · rw [setPositionFirst, if_neg h] at hm
      rcases List.mem_cons.mp hm with rfl | hm'
      · exact Or.inl (List.mem_cons_self ..)
      · rcases ih hm' with h1 | ⟨n', hn', h1, h2, h3⟩
        · exact Or.inl (List.mem_cons_of_mem _ h1)
        · exact Or.inr ⟨n', List.mem_cons_of_mem _ hn', h1, h2, h3⟩

/-- The update `setPositionFirst` preserves any count that ignores the `position` field. -/
theorem countP_setPositionFirst (s : Store) (t : Nat) (pos : BinaryPosition)
    (f : MemberNode → Bool)
    (hf : ∀ n : MemberNode, f { n with position := some pos } = f n) :
    (setPositionFirst s t pos).countP f = s.countP f := by
  induction s with
  | nil => rfl
  | cons n rest ih =>
    by_cases h : n.id = t ∧ n.position = none
    · rw [setPositionFirst, if_pos h, List.countP_cons, List.countP_cons, hf n]
    · simp [setPositionFirst, h, List.countP_cons, ih]

/-- Split a count along a disjoint disjunction of predicates. -/
theorem countP_or_disjoint {α : Type} (l : List α) (f g h : α → Bool)
    (hfg : ∀ a ∈ l, f a = (g a || h a)) (hdis : ∀ a ∈ l, ¬(g a = true ∧ h a = true)) :
    l.countP f = l.countP g + l.countP h := by
  induction l with
  | nil => rfl
  | cons a rest ih =>
    have hrec := ih (fun a ha => hfg a (List.mem_cons_of_mem _ ha))
      (fun a ha => hdis a (List.mem_cons_of_mem _ ha))
    have hfa := hfg a (List.mem_cons_self ..)
    have hda := hdis a (List.mem_cons_self ..)
    simp only [List.countP_cons, hrec, hfa]
    cases hg : g a <;> cases hh : h a <;> simp [hg, hh] at hda ⊢ <;> omega

theorem childrenOf_perm (s : Store) (p : Nat) :
    (childrenOf s p).Perm (s.filter (fun n => n.parent = some p)) :=
  List.perm_insertionSort _ _

theorem mem_childrenOf {s : Store} {p : Nat} {c : MemberNode} :
    c ∈ childrenOf s p ↔ c ∈ s ∧ c.parent = some p := by
  rw [(childrenOf_perm s p).mem_iff, List.mem_filter]
  simp

theorem length_childrenOf (s : Store) (p : Nat) :
    (childrenOf s p).length = s.countP (fun n => n.parent = some p) := by
  rw [(childrenOf_perm s p).length_eq, ← List.countP_eq_length_filter]

theorem lastChildWith_some {children : List MemberNode} {pos : BinaryPosition} {i : Nat}
    (h : lastChildWith children pos = some i) :
    ∃ c ∈ children, c.position = some pos ∧ c.id = i := by
  suffices H : ∀ (l : List MemberNode) (acc : Option Nat),
      l.foldl (fun acc c => if c.position = some pos then some c.id else acc) acc = some i →
      (∃ c ∈ l, c.position = some pos ∧ c.id = i) ∨ acc = some i by
    rcases H children none h with h1 | h1
    · exact h1
    · cases h1
  intro l
  induction l with
  | nil => intro acc h; exact Or.inr h
  | cons c rest ih =>
    intro acc h
    rw [List.foldl_cons] at h
    rcases ih _ h with ⟨c', hc', h1, h2⟩ | h1
    · exact Or.inl ⟨c', List.mem_cons_of_mem _ hc', h1, h2⟩
    · by_cases hc : c.position = some pos
      · rw [if_pos hc] at h1
        exact Or.inl ⟨c, List.mem_cons_self .., hc, by injection h1⟩
      · rw [if_neg hc] at h1
        exact Or.inr h1

theorem lastChildWith_foldl_some {pos : BinaryPosition} (l : List MemberNode) (x : Nat) :
    l.foldl (fun acc c => if c.position = some pos then some c.id else acc) (some x) ≠ none := by
  induction l generalizing x with
  | nil => simp
  | cons m rest ih =>
    rw [List.foldl_cons]
    by_cases hm : m.position = some pos
    · rw [if_pos hm]; exact ih m.id
    · rw [if_neg hm]; exact ih x

theorem lastChildWith_none {children : List MemberNode} {pos : BinaryPosition}
    (h : lastChildWith children pos = none) :
    ∀ c ∈ children, c.position ≠ some pos := by
  intro c hc hcpos
  suffices H : ∀ (l : List MemberNode) (acc : Option Nat), c ∈ l → c.position = some pos →
      l.foldl (fun acc c => if c.position = some pos then some c.id else acc) acc ≠ none by
    exact H children none hc hcpos h
  intro l
  induction l with
  | nil => intro acc h; cases h
  | cons m rest ih =>
    intro acc hmem hpos h
    rw [List.foldl_cons] at h
    rcases List.mem_cons.mp hmem with rfl | hmem'
    · rw [if_pos hpos] at h
      exact lastChildWith_foldl_some rest c.id h
    · exact ih _ hmem' hpos h

/-! ## Termination of vthe placement loop

Every loop iteration either pops an already-visited id or marks a new id
visited; a freshly visited parent enqueues at most as many ids as it has
children, and each member is a child of exactly one parent. The measure
`|queue| + #(children of unvisited parents)` therefore strictly decreases. -/

/-- Number of members whose parent is not yet visited: the enqueue budget
still available to the traversal. -/
def pendingChildren (visited : List Nat) (s : Store) : Nat :=
  s.countP (fun n =>
    match n.parent with
    | some x => decide (x ∉ visited)
    | none => false)

theorem backfillOne_store (s : Store) (e : Option Nat) (u : List Nat) (pos : BinaryPosition) :
    (backfillOne s e u pos).1 = s ∨ ∃ t, (backfillOne s e u pos).1 = setPositionFirst s t pos := by
  cases e with
  | some i => exact Or.inl rfl
  | none =>
    cases u with
    | nil => exact Or.inl rfl
    | cons t rest => exact Or.inr ⟨t, rfl⟩

theorem countP_backfillOne (s : Store) (e : Option Nat) (u : List Nat) (pos : BinaryPosition)
    (f : MemberNode → Bool) (hf : ∀ n : MemberNode, f { n with position := some pos } = f n) :
    (backfillOne s e u pos).1.countP f = s.countP f := by
  rcases backfillOne_store s e u pos with h | ⟨t, h⟩
  · rw [h]
  · rw [h, countP_setPositionFirst _ _ _ _ hf]

theorem countP_processNode_store (s : Store) (p : Nat) (f : MemberNode → Bool)
    (hf : ∀ (n : MemberNode) (pos : BinaryPosition), f { n with position := some pos } = f n) :
    (processNode s p).store.countP f = s.countP f := by
  simp only [processNode]
  rw [countP_backfillOne _ _ _ _ _ (fun n => hf n .right),
    countP_backfillOne _ _ _ _ _ (fun n => hf n .left)]

theorem pendingChildren_processNode (v : List Nat) (s : Store) (p : Nat) :
    pendingChildren v (processNode s p).store = pendingChildren v s :=
  countP_processNode_store s p _ (fun _ _ => rfl)

theorem pendingChildren_cons {p : Nat} {v : List Nat} (hp : p ∉ v) (s : Store) :
    pendingChildren v s
      = pendingChildren (p :: v) s + s.countP (fun n => n.parent = some p) := by
  apply countP_or_disjoint
  · intro a _
    cases ha : a.parent with
    | none => simp [ha]
    | some x =>
      by_cases hx : x = p
      · subst hx; simp [ha, hp]
      · simp [ha, hx]
  · intro a _
    cases ha : a.parent with
    | none => simp [ha]
    | some x =>
      by_cases hx : x = p
      · subst hx; simp [ha, hp]
      · simp [ha, hx]

/-- Three-way split of a child list by position value. -/
theorem children_length_split (l : List MemberNode) :
    l.length = l.countP (fun c => c.position = some .left) +
      l.countP (fun c => c.position = some .right) +
      l.countP (fun c => c.position = none) := by
  have h1 : l.countP (fun _ => true) = l.length := by simp
  have h2 : l.countP (fun _ => true)
      = l.countP (fun c => (c.position = none : Bool)) +
        l.countP (fun c => (¬ c.position = none : Bool)) := by
    apply countP_or_disjoint
    · intro a _; by_cases hx : a.position = none <;> simp [hx]
    · intro a _; by_cases hx : a.position = none <;> simp [hx]
  have h3 : l.countP (fun c => (¬ c.position = none : Bool))
      = l.countP (fun c => c.position = some .left) +
        l.countP (fun c => c.position = some .right) := by
    apply countP_or_disjoint
    · intro a _
      cases ha : a.position with
      | none => simp [ha]
      | some q => cases q <;> simp [ha]
    · intro a _
      cases ha : a.position with
      | none => simp [ha]
      | some q => cases q <;> simp [ha]
  omega

theorem length_unpositionedOf (l : List MemberNode) :
    (unpositionedOf l).length = l.countP (fun c => c.position = none) := by
  simp [unpositionedOf, List.countP_eq_length_filter]

theorem countP_pos_of_lastChildWith {l : List MemberNode} {pos : BinaryPosition} {i : Nat}
    (h : lastChildWith l pos = some i) :
    0 < l.countP (fun c => c.position = some pos) := by
  rcases lastChildWith_some h with ⟨c, hc, h1, _⟩
  exact List.countP_pos_iff.mpr ⟨c, hc, by simp [h1]⟩

theorem enqueue_length_le (s : Store) (p : Nat) :
    (processNode s p).enqueue.length ≤ (childrenOf s p).length := by
  have hsplit := children_length_split (childrenOf s p)
  have hu := length_unpositionedOf (childrenOf s p)
  simp only [processNode]
  cases hl : lastChildWith (childrenOf s p) .left with
  | some i =>
    have hL := countP_pos_of_lastChildWith hl
    cases hr : lastChildWith (childrenOf s p) .right with
    | some j =>
      have hR := countP_pos_of_lastChildWith hr
      simp only [backfillOne, List.length_append, Option.toList_some, List.length_cons,
        List.length_nil]
      omega
    | none =>
      cases hu0 : unpositionedOf (childrenOf s p) with
      | nil =>
        simp only [backfillOne, List.length_append, Option.toList_some, Option.toList_none,
          List.length_cons, List.length_nil]
        omega
      | cons t rest =>
        have : rest.length + 1 = (childrenOf s p).countP (fun c => c.position = none) := by
          rw [← hu]; rw [hu0]; rfl
        simp only [backfillOne, List.length_append, Option.toList_some, List.length_cons,
          List.length_nil]
        omega
  | none =>
    cases hu0 : unpositionedOf (childrenOf s p) with
    | nil =>
      cases hr : lastChildWith (childrenOf s p) .right with
      | some j =>
        have hR := countP_pos_of_lastChildWith hr
        simp only [backfillOne, List.length_append, Option.toList_some, Option.toList_none,
          List.length_cons, List.length_nil]
        omega
      | none =>
        simp only [backfillOne, List.length_append, Option.toList_none, List.length_nil]
        omega
    | cons t rest =>
      have hlen : rest.length + 1 = (childrenOf s p).countP (fun c => c.position = none) := by
        rw [← hu]; rw [hu0]; rfl
      cases hr : lastChildWith (childrenOf s p) .right with
      | some j =>
        have hR := countP_pos_of_lastChildWith hr
        simp only [backfillOne, List.length_append, Option.toList_some, List.length_cons,
          List.length_nil]
        omega
      | none =>
        cases rest with
        | nil =>
          simp only [backfillOne, List.length_append, Option.toList_some, Option.toList_none,
            List.length_cons, List.length_nil]
          omega
        | cons t2 rest2 =>
          simp only [List.length_cons] at hlen
          simp only [backfillOne, List.length_append, Option.toList_some, List.length_cons,
            List.length_nil]
          omega

theorem runAux_no_outOfFuel_aux :
    ∀ (fuel : Nat) (s : Store) (q v : List Nat),
      q.length + pendingChildren v s < fuel → (runAux fuel s q v).1 ≠ .outOfFuel := by
  intro fuel
  induction fuel with
  | zero => intro s q v h; omega
  | succ n ih =>
    intro s q v h
    match q with
    | [] => simp [runAux]
    | p :: rest =>
      rw [runAux]
      by_cases hv : p ∈ v
      · rw [if_pos hv]
        apply ih
        simp only [List.length_cons] at h
        omega
      · rw [if_neg hv]
        by_cases hlim : MAX_VISITS < (p :: v).length
        · rw [if_pos hlim]; simp
        · rw [if_neg hlim]
          cases hm : (processNode s p).missing with
          | some pos => simp only [hm]; simp
          | none =>
            simp only [hm]
            apply ih
            have h1 := pendingChildren_processNode (p :: v) s p
            have h2 := pendingChildren_cons hv s
            have h3 := enqueue_length_le s p
            have h4 := length_childrenOf s p
            simp only [List.length_cons, List.length_append] at h ⊢
            omega

/-- The fuel supplied by `findBinaryPlacement` is never exhausted: the
modelled loop terminates on every finite store. -/
theorem findBinaryPlacement_terminates (s : Store) (sp : Nat) :
    (findBinaryPlacement s sp).1 ≠ .outOfFuel := by
  apply runAux_no_outOfFuel_aux
  have h := List.countP_le_length
    (p := fun n : MemberNode =>
      match n.parent with
      | some x => decide (x ∉ ([] : List Nat))
      | none => false) (l := s)
  simp only [placementFuel, pendingChildren, List.length_cons, List.length_nil]
  omega

/-! ## The final `Unable to find binary placement` throw is unreachable

If the queue drains without a slot being found, every visited node had both
a left and a right child, and those children were themselves visited. Each
member has a single `parent` reference, so distinct visited nodes have
distinct children — an injection from `visited × {left,right}` into
`visited`, which is impossible for a nonempty visited set. -/

instance : Inhabited MemberNode := ⟨⟨0, none, none, 0⟩⟩

/-- The `_id` uniqueness of the user collection. -/
def IdsNodup (s : Store) : Prop := (s.map (fun n => n.id)).Nodup

instance (s : Store) : Decidable (IdsNodup s) := by unfold IdsNodup; infer_instance

theorem idsNodup_setPositionFirst {s : Store} (h : IdsNodup s) (t : Nat) (pos : BinaryPosition) :
    IdsNodup (setPositionFirst s t pos) := by
  unfold IdsNodup at *
  rw [setPositionFirst_map_id]
  exact h

theorem node_eq_of_id_eq {s : Store} (h : IdsNodup s) {n m : MemberNode}
    (hn : n ∈ s) (hm : m ∈ s) (hid : n.id = m.id) : n = m :=
  List.inj_on_of_nodup_map h hn hm hid

theorem backfillOne_map_id (s : Store) (e : Option Nat) (u : List Nat) (pos : BinaryPosition) :
    (backfillOne s e u pos).1.map (fun n => n.id) = s.map (fun n => n.id) := by
  rcases backfillOne_store s e u pos with h | ⟨t, h⟩
  · rw [h]
  · rw [h, setPositionFirst_map_id]

theorem processNode_map_id (s : Store) (p : Nat) :
    (processNode s p).store.map (fun n => n.id) = s.map (fun n => n.id) := by
  simp only [processNode]
  rw [backfillOne_map_id, backfillOne_map_id]

theorem idsNodup_processNode {s : Store} (h : IdsNodup s) (p : Nat) :
    IdsNodup (processNode s p).store := by
  unfold IdsNodup at *
  rw [processNode_map_id]
  exact h

theorem mem_processNode_store_of_positioned {s : Store} {nn : MemberNode} {q : BinaryPosition}
    (hmem : nn ∈ s) (hpos : nn.position = some q) (p : Nat) :
    nn ∈ (processNode s p).store := by
  simp only [processNode]
  have h1 : nn ∈ (backfillOne s (lastChildWith (childrenOf s p) .left)
      (unpositionedOf (childrenOf s p)) .left).1 := by
    rcases backfillOne_store s (lastChildWith (childrenOf s p) .left)
        (unpositionedOf (childrenOf s p)) .left with h | ⟨t, h⟩
    · rw [h]; exact hmem
    · rw [h]; exact mem_setPositionFirst_of_positioned hmem hpos t .left
  rcases backfillOne_store (backfillOne s (lastChildWith (childrenOf s p) .left)
      (unpositionedOf (childrenOf s p)) .left).1 (lastChildWith (childrenOf s p) .right)
      (backfillOne s (lastChildWith (childrenOf s p) .left)
        (unpositionedOf (childrenOf s p)) .left).2.2 .right with h | ⟨t, h⟩
  · rw [h]; exact h1
  · rw [h]; exact mem_setPositionFirst_of_positioned h1 hpos t .right

/-- The node updated by a guarded backfill write is present afterwards with
the assigned position (and otherwise unchanged fields). -/
theorem setPositionFirst_mem_update {s : Store} (hnd : IdsNodup s) {c : MemberNode}
    (hc : c ∈ s) (hcp : c.position = none) (pos : BinaryPosition) :
    { c with position := some pos } ∈ setPositionFirst s c.id pos := by
  induction s with
  | nil => cases hc
  | cons m rest ih =>
    by_cases h : m.id = c.id ∧ m.position = none
    · have hmc : m = c :=
        node_eq_of_id_eq hnd (List.mem_cons_self ..) hc h.1
      rw [setPositionFirst, if_pos h, hmc]
      exact List.mem_cons_self ..
    · have hcrest : c ∈ rest := by
        rcases List.mem_cons.mp hc with rfl | h'
        · exact absurd ⟨rfl, hcp⟩ h
        · exact h'
      have hnd' : IdsNodup rest := by
        unfold IdsNodup at hnd ⊢
        exact (List.nodup_cons.mp hnd).2
      rw [setPositionFirst, if_neg h]
      exact List.mem_cons_of_mem _ (ih hnd' hcrest)

theorem unpositioned_mem_node {s : Store} {p t : Nat}
    (h : t ∈ unpositionedOf (childrenOf s p)) :
    ∃ c ∈ s, c.parent = some p ∧ c.position = none ∧ c.id = t := by
  unfold unpositionedOf at h
  rcases List.mem_map.mp h with ⟨c, hc, rfl⟩
  rcases List.mem_filter.mp hc with ⟨hc1, hc2⟩
  rcases mem_childrenOf.mp hc1 with ⟨hcs, hcp⟩
  exact ⟨c, hcs, hcp, by simpa using hc2, rfl⟩

theorem unpositioned_nodup {s : Store} (h : IdsNodup s) (p : Nat) :
    (unpositionedOf (childrenOf s p)).Nodup := by
  have hperm := (childrenOf_perm s p).map (fun n => n.id)
  have hsub : List.Sublist ((s.filter (fun n => n.parent = some p)).map (fun n => n.id))
      (s.map (fun n => n.id)) := (List.filter_sublist _).map _
  have hch : ((childrenOf s p).map (fun n => n.id)).Nodup :=
    hperm.nodup_iff.mpr (h.sublist hsub)
  unfold unpositionedOf
  exact hch.sublist ((List.filter_sublist _).map _)

/-- When processing a node yields no open slot, the final store contains a
left child and a right child of that node, and both appear on the enqueue
list. -/
theorem processNode_full_witness {s : Store} (hnd : IdsNodup s) {p : Nat}
    (hm : (processNode s p).missing = none) (pos : BinaryPosition) :
    ∃ n ∈ (processNode s p).store,
      n.parent = some p ∧ n.position = some pos ∧ n.id ∈ (processNode s p).enqueue := by
  simp only [processNode] at hm ⊢
  cases hl : lastChildWith (childrenOf s p) .left with
  | some i =>
    rcases lastChildWith_some hl with ⟨cL, hcL, hcLpos, hcLid⟩
    rcases mem_childrenOf.mp hcL with ⟨hcLs, hcLpar⟩
    cases hr : lastChildWith (childrenOf s p) .right with
    | some j =>
      rcases lastChildWith_some hr with ⟨cR, hcR, hcRpos, hcRid⟩
      rcases mem_childrenOf.mp hcR with ⟨hcRs, hcRpar⟩
      simp only [backfillOne, hl, hr] at hm ⊢
      cases pos with
      | left => exact ⟨cL, hcLs, hcLpar, hcLpos, by simp [hcLid]⟩
      | right => exact ⟨cR, hcRs, hcRpar, hcRpos, by simp [hcRid]⟩
    | none =>
      cases hu0 : unpositionedOf (childrenOf s p) with
      | nil => simp [backfillOne, hl, hr, hu0] at hm
      | cons t rest =>
        rcases unpositioned_mem_node (p := p) (t := t)
          (by rw [hu0]; exact List.mem_cons_self ..) with ⟨c2, hc2s, hc2par, hc2pos, hc2id⟩
        simp only [backfillOne, hl, hr, hu0] at hm ⊢
        cases pos with
        | left =>
          refine ⟨cL, mem_setPositionFirst_of_positioned hcLs hcLpos t .right,
            hcLpar, hcLpos, by simp [hcLid]⟩
        | right =>
          refine ⟨{ c2 with position := some .right }, ?_, hc2par, rfl, by simp [hc2id]⟩
          rw [← hc2id]
          exact setPositionFirst_mem_update hnd hc2s hc2pos .right
  | none =>
    cases hu0 : unpositionedOf (childrenOf s p) with
    | nil => simp [backfillOne, hl, hu0] at hm
    | cons t rest =>
      rcases unpositioned_mem_node (p := p) (t := t)
        (by rw [hu0]; exact List.mem_cons_self ..) with ⟨c2, hc2s, hc2par, hc2pos, hc2id⟩
      have hupd : { c2 with position := some BinaryPosition.left } ∈ setPositionFirst s t .left := by
        rw [← hc2id]
        exact setPositionFirst_mem_update hnd hc2s hc2pos .left
      cases hr : lastChildWith (childrenOf s p) .right with
      | some j =>
        rcases lastChildWith_some hr with ⟨cR, hcR, hcRpos, hcRid⟩
        rcases mem_childrenOf.mp hcR with ⟨hcRs, hcRpar⟩
        simp only [backfillOne, hl, hr, hu0] at hm ⊢
        cases pos with
        | left => exact ⟨{ c2 with position := some .left }, hupd, hc2par, rfl, by simp [hc2id]⟩
        | right =>
          exact ⟨cR, mem_setPositionFirst_of_positioned hcRs hcRpos t .left,
            hcRpar, hcRpos, by simp [hcRid]⟩
      | none =>
        cases rest with
        | nil => simp [backfillOne, hl, hr, hu0] at hm
        | cons t2 rest2 =>
          have hnd1 : IdsNodup (setPositionFirst s t .left) :=
            idsNodup_setPositionFirst hnd t .left
          rcases unpositioned_mem_node (p := p) (t := t2)
            (by rw [hu0]; exact List.mem_cons_of_mem _ (List.mem_cons_self ..)) with
            ⟨c3, hc3s, hc3par, hc3pos, hc3id⟩
          have htne : t2 ≠ t := by
            have hnodup := unpositioned_nodup hnd p
            rw [hu0] at hnodup
            intro he
            exact (List.nodup_cons.mp hnodup).1 (he ▸ List.mem_cons_self ..)
          have hc3s1 : c3 ∈ setPositionFirst s t .left :=
            mem_setPositionFirst_of_id_ne hc3s (by rw [hc3id]; exact htne) .left
          have hupd2 : { c3 with position := some BinaryPosition.right }
              ∈ setPositionFirst (setPositionFirst s t .left) t2 .right := by
            rw [← hc3id]
            exact setPositionFirst_mem_update hnd1 hc3s1 hc3pos .right
          simp only [backfillOne, hl, hr, hu0] at hm ⊢
          cases pos with
          | left =>
            refine ⟨{ c2 with position := some .left }, ?_, hc2par, rfl, by simp [hc2id]⟩
            exact mem_setPositionFirst_of_positioned hupd rfl t2 .right
          | right =>
            exact ⟨{ c3 with position := some .right }, hupd2, hc3par, rfl, by simp [hc3id]⟩

/-- A nonempty set of ids each of which has, inside a duplicate-free store,
a left child and a right child whose ids are again in the set, cannot
exist: two injections with disjoint ranges would map the set into itself. -/
theorem no_closed_full_family {s : Store} (hnd : IdsNodup s) {v : List Nat} (hv : v ≠ [])
    (h : ∀ x ∈ v, ∀ pos : BinaryPosition,
      ∃ n ∈ s, n.parent = some x ∧ n.position = some pos ∧ n.id ∈ v) :
    False := by
  classical
  have hchoice : ∀ xp : Nat × BinaryPosition, ∃ n : MemberNode,
      xp.1 ∈ v → (n ∈ s ∧ n.parent = some xp.1 ∧ n.position = some xp.2 ∧ n.id ∈ v) := by
    rintro ⟨x, pos⟩
    by_cases hx : x ∈ v
    · rcases h x hx pos with ⟨n, hn1, hn2⟩
      exact ⟨n, fun _ => ⟨hn1, hn2⟩⟩
    · exact ⟨default, fun hx2 => absurd hx2 hx⟩
  choose F hF using hchoice
  have hmaps : ∀ xp ∈ v.toFinset ×ˢ (Finset.univ : Finset BinaryPosition),
      (F xp).id ∈ v.toFinset := by
    rintro ⟨x, pos⟩ hxp
    rcases Finset.mem_product.mp hxp with ⟨hx, _⟩
    exact List.mem_toFinset.mpr (hF (x, pos) (List.mem_toFinset.mp hx)).2.2.2
  have hinj : Set.InjOn (fun xp => (F xp).id)
      ↑(v.toFinset ×ˢ (Finset.univ : Finset BinaryPosition)) := by
    rintro ⟨x, pos⟩ hx ⟨y, pos2⟩ hy hfeq
    rcases Finset.mem_product.mp (Finset.mem_coe.mp hx) with ⟨hx1, _⟩
    rcases Finset.mem_product.mp (Finset.mem_coe.mp hy) with ⟨hy1, _⟩
    rcases hF (x, pos) (List.mem_toFinset.mp hx1) with ⟨hm1, hp1, hq1, _⟩
    rcases hF (y, pos2) (List.mem_toFinset.mp hy1) with ⟨hm2, hp2, hq2, _⟩
    have heq : F (x, pos) = F (y, pos2) := node_eq_of_id_eq hnd hm1 hm2 hfeq
    rw [heq, hp2] at hp1
    rw [heq, hq2] at hq1
    have h1 : y = x := by injection hp1
    have h2 : pos2 = pos := by injection hq1
    rw [h1, h2]
  have hcard := Finset.card_le_card_of_injOn _ hmaps hinj
  rw [Finset.card_product] at hcard
  have huniv : (Finset.univ : Finset BinaryPosition).card = 2 := rfl
  rw [huniv] at hcard
  have hne : v.toFinset.Nonempty := by
    cases v with
    | nil => exact absurd rfl hv
    | cons a rest => exact ⟨a, List.mem_toFinset.mpr (List.mem_cons_self ..)⟩
  have hpos := Finset.card_pos.mpr hne
  omega

/-- Loop invariant: every visited node has, in the current store, a child in
each slot whose id is itself either visited or still queued. -/
def FullWitness (s : Store) (q v : List Nat) : Prop :=
  ∀ x ∈ v, ∀ pos : BinaryPosition,
    ∃ n ∈ s, n.parent = some x ∧ n.position = some pos ∧ (n.id ∈ v ∨ n.id ∈ q)

theorem runAux_no_noPlacement_aux :
    ∀ (fuel : Nat) (s : Store) (q v : List Nat), IdsNodup s → FullWitness s q v →
      (v ≠ [] ∨ q ≠ []) → (runAux fuel s q v).1 ≠ .noPlacement := by
  intro fuel
  induction fuel with
  | zero => intro s q v _ _ _; simp [runAux]
  | succ m ih =>
    intro s q v hnd hfw hne
    match q with
    | [] =>
      exfalso
      have hv : v ≠ [] := by
        rcases hne with h | h
        · exact h
        · exact absurd rfl h
      apply no_closed_full_family hnd hv
      intro x hx pos
      rcases hfw x hx pos with ⟨nn, h1, h2, h3, h4 | h4⟩
      · exact ⟨nn, h1, h2, h3, h4⟩
      · cases h4
    | p :: rest =>
      rw [runAux]
      by_cases hv : p ∈ v
      · rw [if_pos hv]
        apply ih _ _ _ hnd ?_ (Or.inl (List.ne_nil_of_mem hv))
        intro x hx pos
        rcases hfw x hx pos with ⟨nn, h1, h2, h3, h4⟩
        refine ⟨nn, h1, h2, h3, ?_⟩
        rcases h4 with h4 | h4
        · exact Or.inl h4
        · rcases List.mem_cons.mp h4 with h5 | h5
          · exact Or.inl (h5 ▸ hv)
          · exact Or.inr h5
      · rw [if_neg hv]
        by_cases hlim : MAX_VISITS < (p :: v).length
        · rw [if_pos hlim]; simp
        · rw [if_neg hlim]
          cases hm : (processNode s p).missing with
          | some pos => simp only [hm]; simp
          | none =>
            simp only [hm]
            apply ih _ _ _ (idsNodup_processNode hnd p) ?_ (Or.inl (List.cons_ne_nil _ _))
            intro x hx pos
            rcases List.mem_cons.mp hx with rfl | hx2
            · rcases processNode_full_witness hnd hm pos with ⟨nn, h1, h2, h3, h4⟩
              exact ⟨nn, h1, h2, h3, Or.inr (List.mem_append_right _ h4)⟩
            · rcases hfw x hx2 pos with ⟨nn, h1, h2, h3, h4⟩
              refine ⟨nn, mem_processNode_store_of_positioned h1 h3 p, h2, h3, ?_⟩
              rcases h4 with h4 | h4
              · exact Or.inl (List.mem_cons_of_mem _ h4)
              · rcases List.mem_cons.mp h4 with h5 | h5
                · exact Or.inl (h5 ▸ List.mem_cons_self ..)
                · exact Or.inr (List.mem_append_left _ h5)

/-- Under `_id` uniqueness, the trailing
`throw new Error("Unable to find binary placement")` is unreachable. -/
theorem findBinaryPlacement_no_noPlacement {s : Store} (h : IdsNodup s) (sp : Nat) :
    (findBinaryPlacement s sp).1 ≠ .noPlacement := by
  apply runAux_no_noPlacement_aux _ _ _ _ h ?_ (Or.inr (List.cons_ne_nil _ _))
  intro x hx
  cases hx

/-! ## Level-order reference search

For C3 we compare the queue-based loop against a reference search that is
level-indexed by construction: it scans the current breadth-first level left
to right and only then descends to the next level, so the first open slot it
reports is at the shallowest depth reachable from the sponsor, with `left`
checked before `right` at each node. -/

/-- A store with no pending legacy backfill: every non-root member carries a
binary position. -/
def Positioned (s : Store) : Prop :=
  ∀ n ∈ s, n.parent ≠ none → n.position ≠ none

instance (s : Store) : Decidable (Positioned s) := by
  unfold Positioned; infer_instance

/-- The open slot (left checked before right) at a node, when no backfill is
pending. -/
def pureMissing (s : Store) (p : Nat) : Option BinaryPosition :=
  if lastChildWith (childrenOf s p) .left = none then some .left
  else if lastChildWith (childrenOf s p) .right = none then some .right
  else none

/-- The children enqueued under a node when no backfill is pending: the left
child then the right child. -/
def pureKids (s : Store) (p : Nat) : List Nat :=
  (lastChildWith (childrenOf s p) .left).toList ++
    (lastChildWith (childrenOf s p) .right).toList

theorem unpositionedOf_eq_nil {s : Store} (hs : Positioned s) (p : Nat) :
    unpositionedOf (childrenOf s p) = [] := by
  unfold unpositionedOf
  rw [List.filter_eq_nil_iff.mpr, List.map_nil]
  intro c hc
  rcases mem_childrenOf.mp hc with ⟨hcs, hcp⟩
  have := hs c hcs (by rw [hcp]; exact fun h => Option.noConfusion h)
  simpa using this

/-- On a fully positioned store the loop body performs no write and reduces
to the pure slot/children computation. -/
theorem processNode_of_positioned {s : Store} (hs : Positioned s) (p : Nat) :
    processNode s p = ⟨s, pureMissing s p, pureKids s p⟩ := by
  have hu := unpositionedOf_eq_nil hs p
  cases hl : lastChildWith (childrenOf s p) .left with
  | some i =>
    cases hr : lastChildWith (childrenOf s p) .right with
    | some j => simp [processNode, backfillOne, hu, pureMissing, pureKids, hl, hr]
    | none => simp [processNode, backfillOne, hu, pureMissing, pureKids, hl, hr]
  | none =>
    cases hr : lastChildWith (childrenOf s p) .right with
    | some j => simp [processNode, backfillOne, hu, pureMissing, pureKids, hl, hr]
    | none => simp [processNode, backfillOne, hu, pureMissing, pureKids, hl, hr]

/-- Result of the level-order reference search. -/
inductive LevelResult
  | found (parentId : Nat) (position : BinaryPosition)
  | exhausted
  | limitExceeded
  | outOfFuel
deriving DecidableEq, Repr

/-- Reference search: scan the current level left to right (skipping already
visited ids and honoring the visited cap), then descend to the next level,
which collects the children of this level's nodes in scan order. -/
def levelSearchAux : Nat → Store → List Nat → List Nat → List Nat → LevelResult
  | 0, _, _, _, _ => .outOfFuel
  | fuel + 1, s, v, [], next =>
    match next with
    | [] => .exhausted
    | _ :: _ => levelSearchAux fuel s v next []
  | fuel + 1, s, v, p :: rest, next =>
    if p ∈ v then levelSearchAux fuel s v rest next
    else
      if MAX_VISITS < (p :: v).length then .limitExceeded
      else
        match pureMissing s p with
        | some pos => .found p pos
        | none => levelSearchAux fuel s (p :: v) rest (next ++ pureKids s p)

/-- The first open slot in breadth-first level order under the sponsor. -/
def levelSearch (s : Store) (sponsorId : Nat) (fuel : Nat) : LevelResult :=
  levelSearchAux fuel s [] [sponsorId] []

def LevelResult.toPlacement : LevelResult → PlacementResult
  | .found p pos => .found p pos
  | .exhausted => .noPlacement
  | .limitExceeded => .limitExceeded
  | .outOfFuel => .outOfFuel

theorem runAux_fuel_stable :
    ∀ (f : Nat) (s : Store) (q v : List Nat) (f2 : Nat), f ≤ f2 →
      (runAux f s q v).1 ≠ .outOfFuel → runAux f2 s q v = runAux f s q v := by
  intro f
  induction f with
  | zero => intro s q v f2 _ h; simp [runAux] at h
  | succ m ih =>
    intro s q v f2 hle h
    obtain ⟨k, rfl⟩ : ∃ k, f2 = k + 1 := ⟨f2 - 1, by omega⟩
    match q with
    | [] => rw [runAux, runAux]
    | p :: rest =>
      rw [runAux] at h ⊢
      rw [runAux]
      by_cases hv : p ∈ v
      · rw [if_pos hv] at h ⊢
        rw [if_pos hv]
        exact ih _ _ _ _ (by omega) h
      · rw [if_neg hv] at h ⊢
        rw [if_neg hv]
        by_cases hlim : MAX_VISITS < (p :: v).length
        · rw [if_pos hlim]
          rw [if_pos hlim]
        · rw [if_neg hlim] at h ⊢
          rw [if_neg hlim]
          cases hm : (processNode s p).missing with
          | some pos => simp only [hm]
          | none =>
            simp only [hm] at h ⊢
            exact ih _ _ _ _ (by omega) h

/-- The queue-based loop agrees with the level-order reference search: on a
fully positioned store the loop (given enough fuel) returns exactly what the
level-by-level scan returns. -/
theorem runAux_eq_levelSearchAux :
    ∀ (f2 : Nat) (s : Store) (v cur next : List Nat) (f1 : Nat), Positioned s → f2 ≤ f1 →
      levelSearchAux f2 s v cur next ≠ .outOfFuel →
      (runAux f1 s (cur ++ next) v).1 = (levelSearchAux f2 s v cur next).toPlacement := by
  intro f2
  induction f2 with
  | zero => intro s v cur next f1 _ _ hno; simp [levelSearchAux] at hno
  | succ m ih =>
    intro s v cur next f1 hs hle hno
    obtain ⟨k, rfl⟩ : ∃ k, f1 = k + 1 := ⟨f1 - 1, by omega⟩
    match cur with
    | [] =>
      match next with
      | [] =>
        rw [levelSearchAux]
        simp only [List.nil_append]
        rw [runAux]
        rfl
      | n :: ns =>
        rw [levelSearchAux] at hno ⊢
        simp only [List.nil_append]
        have := ih s v (n :: ns) [] (k + 1) hs (by omega) hno
        rw [List.append_nil] at this
        exact this
    | p :: rest =>
      rw [levelSearchAux] at hno ⊢
      rw [List.cons_append, runAux]
      by_cases hv : p ∈ v
      · rw [if_pos hv] at hno ⊢
        rw [if_pos hv]
        exact ih s v rest next k hs (by omega) hno
      · rw [if_neg hv] at hno ⊢
        rw [if_neg hv]
        by_cases hlim : MAX_VISITS < (p :: v).length
        · rw [if_pos hlim]
          rw [if_pos hlim]
          rfl
        · rw [if_neg hlim] at hno ⊢
          rw [if_neg hlim]
          rw [processNode_of_positioned hs p]
          cases hm : pureMissing s p with
          | some pos =>
            simp only [hm]
            rfl
          | none =>
            simp only [hm] at hno ⊢
            have := ih s (p :: v) rest (next ++ pureKids s p) k hs (by omega) hno
            rw [← List.append_assoc] at this
            exact this

/-! ## Characterization of the legacy backfill -/

instance : IsTotal MemberNode (fun a b => a.createdAt ≤ b.createdAt) :=
  ⟨fun x y => Nat.le_total x.createdAt y.createdAt⟩

instance : IsTrans MemberNode (fun a b => a.createdAt ≤ b.createdAt) :=
  ⟨fun _ _ _ h1 h2 => Nat.le_trans h1 h2⟩

theorem childrenOf_sorted (s : Store) (p : Nat) :
    (childrenOf s p).Sorted (fun a b => a.createdAt ≤ b.createdAt) :=
  List.sorted_insertionSort _ _

/-- Spec-level description of the backfill writes performed while processing
`p`: the earliest-created unpositioned child is assigned `left` only when no
child occupies `left`, the next unpositioned child is assigned `right` only
when no child occupies `right`, and no further unpositioned child is ever
assigned. -/
def backfillAssignments (s : Store) (p : Nat) : List (Nat × BinaryPosition) :=
  let u := unpositionedOf (childrenOf s p)
  if lastChildWith (childrenOf s p) .left = none then
    (u.take 1).map (fun i => (i, BinaryPosition.left)) ++
      (if lastChildWith (childrenOf s p) .right = none then
        ((u.drop 1).take 1).map (fun i => (i, BinaryPosition.right))
      else [])
  else
    if lastChildWith (childrenOf s p) .right = none then
      (u.take 1).map (fun i => (i, BinaryPosition.right))
    else []

/-- Apply a sequence of guarded position writes in order. -/
def applyAssignments (s : Store) (ps : List (Nat × BinaryPosition)) : Store :=
  ps.foldl (fun st q => setPositionFirst st q.1 q.2) s

theorem mem_applyAssignments_of_not_target {ps : List (Nat × BinaryPosition)} :
    ∀ {s : Store} {n : MemberNode}, n ∈ s → n.id ∉ ps.map Prod.fst →
      n ∈ applyAssignments s ps := by
  induction ps with
  | nil => intro s n hn _; exact hn
  | cons q rest ih =>
    intro s n hn h
    simp only [List.map_cons, List.mem_cons] at h
    push_neg at h
    exact ih (mem_setPositionFirst_of_id_ne hn h.1 q.2) h.2

/-- The loop body's store mutation is exactly the one/two spec-level
backfill writes. -/
theorem processNode_store_eq_applyAssignments (s : Store) (p : Nat) :
    (processNode s p).store = applyAssignments s (backfillAssignments s p) := by
  cases hl : lastChildWith (childrenOf s p) .left with
  | some i =>
    cases hr : lastChildWith (childrenOf s p) .right with
    | some j => simp [processNode, backfillOne, backfillAssignments, applyAssignments, hl, hr]
    | none =>
      cases hu : unpositionedOf (childrenOf s p) with
      | nil => simp [processNode, backfillOne, backfillAssignments, applyAssignments, hl, hr, hu]
      | cons t rest =>
        simp [processNode, backfillOne, backfillAssignments, applyAssignments, hl, hr, hu]
  | none =>
    cases hu : unpositionedOf (childrenOf s p) with
    | nil =>
      cases hr : lastChildWith (childrenOf s p) .right with
      | some j => simp [processNode, backfillOne, backfillAssignments, applyAssignments, hl, hr, hu]
      | none => simp [processNode, backfillOne, backfillAssignments, applyAssignments, hl, hr, hu]
    | cons t rest =>
      cases hr : lastChildWith (childrenOf s p) .right with
      | some j => simp [processNode, backfillOne, backfillAssignments, applyAssignments, hl, hr, hu]
      | none =>
        cases rest with
        | nil => simp [processNode, backfillOne, backfillAssignments, applyAssignments, hl, hr, hu]
        | cons t2 rest2 =>
          simp [processNode, backfillOne, backfillAssignments, applyAssignments, hl, hr, hu]

theorem backfillAssignments_length_le (s : Store) (p : Nat) :
    (backfillAssignments s p).length ≤ 2 := by
  unfold backfillAssignments
  by_cases hl : lastChildWith (childrenOf s p) .left = none <;>
    by_cases hr : lastChildWith (childrenOf s p) .right = none <;>
      simp [hl, hr] <;>
        cases unpositionedOf (childrenOf s p) with
        | nil => simp
        | cons t rest => simp [List.take_cons]; omega

theorem backfillAssignments_targets (s : Store) (p : Nat) :
    (backfillAssignments s p).map Prod.fst
      = (unpositionedOf (childrenOf s p)).take (backfillAssignments s p).length := by
  unfold backfillAssignments
  by_cases hl : lastChildWith (childrenOf s p) .left = none <;>
    by_cases hr : lastChildWith (childrenOf s p) .right = none <;>
      simp only [hl, hr, if_pos, if_neg, if_true, if_false] <;>
        cases hu : unpositionedOf (childrenOf s p) with
          | nil => simp
          | cons t rest => cases rest <;> simp

theorem backfillAssignments_left_guard (s : Store) (p : Nat)
    (h : lastChildWith (childrenOf s p) .left ≠ none) :
    ∀ q ∈ backfillAssignments s p, q.2 ≠ BinaryPosition.left := by
  unfold backfillAssignments
  rw [if_neg h]
  by_cases hr : lastChildWith (childrenOf s p) .right = none
  · rw [if_pos hr]
    intro q hq
    rcases List.mem_map.mp hq with ⟨i, _, rfl⟩
    simp
  · rw [if_neg hr]
    intro q hq
    cases hq

theorem backfillAssignments_right_guard (s : Store) (p : Nat)
    (h : lastChildWith (childrenOf s p) .right ≠ none) :
    ∀ q ∈ backfillAssignments s p, q.2 ≠ BinaryPosition.right := by
  unfold backfillAssignments
  by_cases hl : lastChildWith (childrenOf s p) .left = none
  · rw [if_pos hl, if_neg h]
    intro q hq
    rw [List.append_nil] at hq
    rcases List.mem_map.mp hq with ⟨i, _, rfl⟩
    simp
  · rw [if_neg hl, if_neg h]
    intro q hq
    cases hq

/-! ## The (parent, position) partial unique index -/

/-- Number of documents occupying slot `pos` under parent `p`. -/
def slotCount (s : Store) (p : Nat) (pos : BinaryPosition) : Nat :=
  s.countP (fun n => n.parent = some p ∧ n.position = some pos)

/-- The binary invariant: each parent has at most one left child and at most
one right child. -/
def AtMostOnePerSlot (s : Store) : Prop := ∀ p pos, slotCount s p pos ≤ 1

/-- The partial unique index over `(parent, position)` from `User.ts`: it
applies only when `parent` is an ObjectId and `position` is `left`/`right`
(the `partialFilterExpression`), so members with null fields never
conflict. -/
def uniqueIndexViolated (s : Store) (n : MemberNode) : Bool :=
  match n.parent, n.position with
  | some p, some pos => 0 < slotCount s p pos
  | _, _ => false

/-- Embeds `UserModel.create` under the unique index: rejected when the new
document would duplicate an occupied (parent, position) slot. -/
def insertUser (s : Store) (n : MemberNode) : Option Store :=
  if uniqueIndexViolated s n then none else some (s ++ [n])

/-- One registration-time placement: run the search (whose backfill writes
persist) and insert the new member at the returned slot; a rejected insert
leaves the collection unchanged (the route surfaces the error). -/
def placeOne (s : Store) (sponsorId newId t : Nat) : Store :=
  match findBinaryPlacement s sponsorId with
  | (.found p pos, s2) =>
    match insertUser s2 ⟨newId, some p, some pos, t⟩ with
    | some s3 => s3
    | none => s2
  | (_, s2) => s2

/-- A sequence of placements under the same sponsor; each newcomer is an
`(id, createdAt)` pair. -/
def placeMany (s : Store) (sponsorId : Nat) (newcomers : List (Nat × Nat)) : Store :=
  newcomers.foldl (fun st nc => placeOne st sponsorId nc.1 nc.2) s

theorem slotCount_eq_zero_of_no_child {s : Store} {p : Nat} {pos : BinaryPosition}
    (h : lastChildWith (childrenOf s p) pos = none) : slotCount s p pos = 0 := by
  unfold slotCount
  rw [List.countP_eq_zero]
  intro n hn
  simp only [decide_eq_true_eq, not_and]
  intro hpar hpos
  exact absurd hpos (lastChildWith_none h n (mem_childrenOf.mpr ⟨hn, hpar⟩))

theorem slotCount_setPositionFirst {s : Store} (hnd : IdsNodup s) {c : MemberNode}
    (hc : c ∈ s) (hcp : c.position = none) (pos : BinaryPosition) (p2 : Nat)
    (pos2 : BinaryPosition) :
    slotCount (setPositionFirst s c.id pos) p2 pos2
      = slotCount s p2 pos2 + (if c.parent = some p2 ∧ pos = pos2 then 1 else 0) := by
  induction s with
  | nil => cases hc
  | cons m rest ih =>
    by_cases h : m.id = c.id ∧ m.position = none
    · have hmc : m = c :=
        node_eq_of_id_eq hnd (List.mem_cons_self ..) hc h.1
      rw [setPositionFirst, if_pos h, hmc]
      unfold slotCount
      rw [List.countP_cons, List.countP_cons]
      have hmember : (decide (c.parent = some p2 ∧ c.position = some pos2)) = false := by
        simp [hcp]
      rw [hmember]
      by_cases hcase : c.parent = some p2 ∧ pos = pos2
      · have : (decide (({ c with position := some pos } : MemberNode).parent = some p2 ∧
            ({ c with position := some pos } : MemberNode).position = some pos2)) = true := by
          simp [hcase.1, hcase.2]
        rw [this, if_pos hcase]
        simp
      · have : (decide (({ c with position := some pos } : MemberNode).parent = some p2 ∧
            ({ c with position := some pos } : MemberNode).position = some pos2)) = false := by
          simp only [decide_eq_false_iff_not]
          intro hcon
          exact hcase ⟨hcon.1, by injection hcon.2⟩
        rw [this, if_neg hcase]
        simp
    · have hcrest : c ∈ rest := by
        rcases List.mem_cons.mp hc with rfl | h2
        · exact absurd ⟨rfl, hcp⟩ h
        · exact h2
      have hnd2 : IdsNodup rest := by
        unfold IdsNodup at hnd ⊢
        exact (List.nodup_cons.mp hnd).2
      rw [setPositionFirst, if_neg h]
      unfold slotCount at ih ⊢
      rw [List.countP_cons, List.countP_cons, ih hnd2 hcrest]
      omega

theorem atMostOne_processNode {s : Store} (hnd : IdsNodup s) (hinv : AtMostOnePerSlot s)
    (p : Nat) : AtMostOnePerSlot (processNode s p).store := by
  simp only [processNode]
  cases hl : lastChildWith (childrenOf s p) .left with
  | some i =>
    cases hr : lastChildWith (childrenOf s p) .right with
    | some j => simpa [backfillOne, hl, hr] using hinv
    | none =>
      cases hu : unpositionedOf (childrenOf s p) with
      | nil => simpa [backfillOne, hl, hr, hu] using hinv
      | cons t rest =>
        rcases unpositioned_mem_node (p := p) (t := t)
          (by rw [hu]; exact List.mem_cons_self ..) with ⟨c, hcs, hcpar, hcpos, hcid⟩
        simp only [backfillOne, hl, hr, hu]
        intro p2 pos2
        rw [← hcid, slotCount_setPositionFirst hnd hcs hcpos .right p2 pos2]
        by_cases hcase : c.parent = some p2 ∧ BinaryPosition.right = pos2
        · rw [if_pos hcase]
          have h0 : slotCount s p2 pos2 = 0 := by
            rw [← hcase.2]
            have : p2 = p := by rw [hcpar] at hcase; injection hcase.1 with h2; exact h2.symm
            rw [this]
            exact slotCount_eq_zero_of_no_child hr
          omega
        · rw [if_neg hcase]
          have := hinv p2 pos2
          omega
  | none =>
    cases hu : unpositionedOf (childrenOf s p) with
    | nil =>
      cases hr : lastChildWith (childrenOf s p) .right with
      | some j => simpa [backfillOne, hl, hr, hu] using hinv
      | none => simpa [backfillOne, hl, hr, hu] using hinv
    | cons t rest =>
      rcases unpositioned_mem_node (p := p) (t := t)
        (by rw [hu]; exact List.mem_cons_self ..) with ⟨c, hcs, hcpar, hcpos, hcid⟩
      have hstep1 : ∀ p2 pos2, slotCount (setPositionFirst s t .left) p2 pos2
          = slotCount s p2 pos2 + (if c.parent = some p2 ∧ BinaryPosition.left = pos2
            then 1 else 0) := by
        intro p2 pos2
        rw [← hcid, slotCount_setPositionFirst hnd hcs hcpos .left p2 pos2]
      have hinv1 : AtMostOnePerSlot (setPositionFirst s t .left) := by
        intro p2 pos2
        rw [hstep1 p2 pos2]
        by_cases hcase : c.parent = some p2 ∧ BinaryPosition.left = pos2
        · rw [if_pos hcase]
          have h0 : slotCount s p2 pos2 = 0 := by
            rw [← hcase.2]
            have : p2 = p := by rw [hcpar] at hcase; injection hcase.1 with h2; exact h2.symm
            rw [this]
            exact slotCount_eq_zero_of_no_child hl
          omega
        · rw [if_neg hcase]
          have := hinv p2 pos2
          omega
      cases hr : lastChildWith (childrenOf s p) .right with
      | some j => simpa [backfillOne, hl, hr, hu] using hinv1
      | none =>
        cases rest with
        | nil => simpa [backfillOne, hl, hr, hu] using hinv1
        | cons t2 rest2 =>
          rcases unpositioned_mem_node (p := p) (t := t2)
            (by rw [hu]; exact List.mem_cons_of_mem _ (List.mem_cons_self ..)) with
            ⟨c3, hc3s, hc3par, hc3pos, hc3id⟩
          have htne : t2 ≠ t := by
            have hnodup := unpositioned_nodup hnd p
            rw [hu] at hnodup
            intro he
            exact (List.nodup_cons.mp hnodup).1 (he ▸ List.mem_cons_self ..)
          have hc3s1 : c3 ∈ setPositionFirst s t .left :=
            mem_setPositionFirst_of_id_ne hc3s (by rw [hc3id]; exact htne) .left
          have hnd1 : IdsNodup (setPositionFirst s t .left) :=
            idsNodup_setPositionFirst hnd t .left
          simp only [backfillOne, hl, hr, hu]
          intro p2 pos2
          rw [← hc3id, slotCount_setPositionFirst hnd1 hc3s1 hc3pos .right p2 pos2]
          by_cases hcase : c3.parent = some p2 ∧ BinaryPosition.right = pos2
          · rw [if_pos hcase]
            have h0 : slotCount (setPositionFirst s t .left) p2 pos2 = 0 := by
              rw [hstep1 p2 pos2]
              have hp2 : p2 = p := by rw [hc3par] at hcase; injection hcase.1 with h2; exact h2.symm
              have hz : slotCount s p2 pos2 = 0 := by
                rw [← hcase.2, hp2]
                exact slotCount_eq_zero_of_no_child hr
              rw [hz]
              rw [if_neg ?_]
              intro hcon
              rw [← hcase.2] at hcon
              exact BinaryPosition.noConfusion hcon.2
            omega
          · rw [if_neg hcase]
            have := hinv1 p2 pos2
            omega

theorem runAux_map_id :
    ∀ (fuel : Nat) (s : Store) (q v : List Nat),
      (runAux fuel s q v).2.map (fun n => n.id) = s.map (fun n => n.id) := by
  intro fuel
  induction fuel with
  | zero => intro s q v; rfl
  | succ m ih =>
    intro s q v
    match q with
    | [] => rfl
    | p :: rest =>
      rw [runAux]
      by_cases hv : p ∈ v
      · rw [if_pos hv]; exact ih _ _ _
      · rw [if_neg hv]
        by_cases hlim : MAX_VISITS < (p :: v).length
        · rw [if_pos hlim]
        · rw [if_neg hlim]
          cases hm : (processNode s p).missing with
          | some pos => simp only [hm]; exact processNode_map_id s p
          | none => simp only [hm]; rw [ih _ _ _, processNode_map_id]

theorem runAux_invariants :
    ∀ (fuel : Nat) (s : Store) (q v : List Nat), IdsNodup s → AtMostOnePerSlot s →
      IdsNodup (runAux fuel s q v).2 ∧ AtMostOnePerSlot (runAux fuel s q v).2 := by
  intro fuel
  induction fuel with
  | zero => intro s q v h1 h2; exact ⟨h1, h2⟩
  | succ m ih =>
    intro s q v h1 h2
    match q with
    | [] => exact ⟨h1, h2⟩
    | p :: rest =>
      rw [runAux]
      by_cases hv : p ∈ v
      · rw [if_pos hv]; exact ih _ _ _ h1 h2
      · rw [if_neg hv]
        by_cases hlim : MAX_VISITS < (p :: v).length
        · rw [if_pos hlim]; exact ⟨h1, h2⟩
        · rw [if_neg hlim]
          cases hm : (processNode s p).missing with
          | some pos =>
            simp only [hm]
            exact ⟨idsNodup_processNode h1 p, atMostOne_processNode h1 h2 p⟩
          | none =>
            simp only [hm]
            exact ih _ _ _ (idsNodup_processNode h1 p) (atMostOne_processNode h1 h2 p)

theorem atMostOne_insertUser {s : Store} (hinv : AtMostOnePerSlot s) {n : MemberNode}
    {s2 : Store} (h : insertUser s n = some s2) : AtMostOnePerSlot s2 := by
  unfold insertUser at h
  by_cases hviol : uniqueIndexViolated s n = true
  · rw [if_pos hviol] at h; cases h
  · rw [if_neg hviol] at h
    injection h with h
    subst h
    intro p2 pos2
    unfold slotCount
    rw [List.countP_append]
    by_cases hpred : n.parent = some p2 ∧ n.position = some pos2
    · have hz : slotCount s p2 pos2 = 0 := by
        unfold uniqueIndexViolated at hviol
        rw [hpred.1, hpred.2] at hviol
        simp at hviol
        omega
      unfold slotCount at hz
      rw [hz]
      have h1 : (decide (n.parent = some p2 ∧ n.position = some pos2)) = true := by
        simp [hpred.1, hpred.2]
      simp only [List.countP_cons, List.countP_nil, h1]
      simp
    · have : (List.countP (fun m : MemberNode =>
          decide (m.parent = some p2 ∧ m.position = some pos2)) [n]) = 0 := by
        simp only [List.countP_cons, List.countP_nil]
        simp [hpred]
      rw [this]
      have := hinv p2 pos2
      unfold slotCount at this
      omega

theorem insertUser_map_id {s : Store} {n : MemberNode} {s2 : Store}
    (h : insertUser s n = some s2) :
    s2.map (fun m => m.id) = s.map (fun m => m.id) ++ [n.id] := by
  unfold insertUser at h
  by_cases hviol : uniqueIndexViolated s n = true
  · rw [if_pos hviol] at h; cases h
  · rw [if_neg hviol] at h
    injection h with h
    subst h
    simp

theorem placeOne_invariants {s : Store} (hnd : IdsNodup s) (hinv : AtMostOnePerSlot s)
    (sp newId t : Nat) (hfresh : newId ∉ s.map (fun n => n.id)) :
    IdsNodup (placeOne s sp newId t) ∧ AtMostOnePerSlot (placeOne s sp newId t) ∧
      ∀ x ∈ (placeOne s sp newId t).map (fun n => n.id),
        x ∈ s.map (fun n => n.id) ∨ x = newId := by
  have hrun := runAux_invariants (placementFuel s) s [sp] [] hnd hinv
  have hmap := runAux_map_id (placementFuel s) s [sp] []
  unfold placeOne
  unfold findBinaryPlacement at hrun hmap ⊢
  cases hres : (runAux (placementFuel s) s [sp] []) with
  | mk r s2 =>
    rw [hres] at hrun hmap
    simp only at hrun hmap
    cases r with
    | found p pos =>
      cases hins : insertUser s2 ⟨newId, some p, some pos, t⟩ with
      | none =>
        simp only [hins]
        exact ⟨hrun.1, hrun.2, fun x hx => Or.inl (hmap ▸ hx)⟩
      | some s3 =>
        simp only [hins]
        have hm3 := insertUser_map_id hins
        refine ⟨?_, atMostOne_insertUser hrun.2 hins, ?_⟩
        · unfold IdsNodup
          rw [hm3, hmap]
          rw [List.nodup_append]
          refine ⟨hmap ▸ hrun.1, List.nodup_singleton _, ?_⟩
          intro a ha hb
          rw [List.mem_singleton] at hb
          have hb2 : a = newId := hb
          exact hfresh (hb2 ▸ ha)
        · intro x hx
          rw [hm3, hmap] at hx
          rcases List.mem_append.mp hx with h | h
          · exact Or.inl h
          · exact Or.inr (by simpa using h)
    | limitExceeded => exact ⟨hrun.1, hrun.2, fun x hx => Or.inl (hmap ▸ hx)⟩
    | noPlacement => exact ⟨hrun.1, hrun.2, fun x hx => Or.inl (hmap ▸ hx)⟩
    | outOfFuel => exact ⟨hrun.1, hrun.2, fun x hx => Or.inl (hmap ▸ hx)⟩

theorem placeMany_invariants (sp : Nat) :
    ∀ (newcomers : List (Nat × Nat)) (s : Store), IdsNodup s → AtMostOnePerSlot s →
      (newcomers.map Prod.fst).Nodup →
      (∀ i ∈ newcomers.map Prod.fst, i ∉ s.map (fun n => n.id)) →
      AtMostOnePerSlot (placeMany s sp newcomers) := by
  intro newcomers
  induction newcomers with
  | nil => intro s _ h2 _ _; exact h2
  | cons nc rest ih =>
    intro s h1 h2 h3 h4
    have hfresh : nc.1 ∉ s.map (fun n => n.id) :=
      h4 nc.1 (by simp)
    have hplace := placeOne_invariants h1 h2 sp nc.1 nc.2 hfresh
    rw [List.map_cons] at h3
    unfold placeMany
    rw [List.foldl_cons]
    apply ih _ hplace.1 hplace.2.1
    · exact (List.nodup_cons.mp h3).2
    · intro i hi hbad
      rcases hplace.2.2 i hbad with hcase | hcase
      · exact h4 i (by simp [hi]) hcase
      · have : i ≠ nc.1 := by
          intro he
          exact (List.nodup_cons.mp h3).1 (he ▸ hi)
        exact this hcase

/-! ## DistributionRule lifecycle

Embedding of the admin rule routes: `POST /api/admin/rules` (create, after
deactivating all active rules when the new rule is to be active),
`PUT /api/admin/rules/:id` (update; when `isActive === true` is requested,
all active rules are deactivated first), and `DELETE /api/admin/rules/:id`. -/

/-- A `DistributionRule` document. -/
structure DistributionRule where
  id : Nat
  basePercentage : Rat
  decayEnabled : Bool
  isActive : Bool
deriving DecidableEq, Repr

abbrev RuleStore := List DistributionRule

/-- Embeds `DistributionRuleModel.updateMany({ isActive: true }, { $set: { isActive: false } })`. -/
def deactivateAll (rs : RuleStore) : RuleStore :=
  rs.map (fun r => if r.isActive then { r with isActive := false } else r)

/-- The update body accepted by `PUT /api/admin/rules/:id` (all fields
optional). -/
structure RuleUpdateBody where
  basePercentage : Option Rat
  decayEnabled : Option Bool
  isActive : Option Bool
deriving DecidableEq, Repr

def applyRuleBody (b : RuleUpdateBody) (r : DistributionRule) : DistributionRule :=
  { r with
    basePercentage := b.basePercentage.getD r.basePercentage
    decayEnabled := b.decayEnabled.getD r.decayEnabled
    isActive := b.isActive.getD r.isActive }

/-- Embeds `findByIdAndUpdate`: update the (first) rule with the given id, if any. -/
def updateFirstRule (rs : RuleStore) (rid : Nat) (b : RuleUpdateBody) : RuleStore :=
  match rs with
  | [] => []
  | r :: rest =>
    if r.id = rid then applyRuleBody b r :: rest
    else r :: updateFirstRule rest rid b

/-- Embeds `findByIdAndDelete`: remove the (first) rule with the given id, if any. -/
def deleteRule (rs : RuleStore) (rid : Nat) : RuleStore :=
  rs.eraseP (fun r => r.id = rid)

/-- The admin rule operations, as executed by the routes. -/
inductive RuleOp
  | create (rid : Nat) (bp : Rat) (decay : Bool) (isActive : Bool)
  | update (rid : Nat) (body : RuleUpdateBody)
  | delete (rid : Nat)

/-- One route invocation. `create`: when the new rule is active, first
deactivate every active rule, then append the new document. `update`: when
the body requests `isActive === true`, first deactivate every active rule,
then apply the body to the addressed rule. `delete`: remove the rule. -/
def applyRuleOp (rs : RuleStore) : RuleOp → RuleStore
  | .create rid bp decay isActive =>
    (if isActive then deactivateAll rs else rs) ++ [⟨rid, bp, decay, isActive⟩]
  | .update rid b =>
    updateFirstRule (if b.isActive = some true then deactivateAll rs else rs) rid b
  | .delete rid => deleteRule rs rid

def applyRuleOps (rs : RuleStore) (ops : List RuleOp) : RuleStore :=
  ops.foldl applyRuleOp rs

/-- Number of active rules. -/
def activeCount (rs : RuleStore) : Nat := rs.countP (fun r => r.isActive)

theorem activeCount_deactivateAll (rs : RuleStore) : activeCount (deactivateAll rs) = 0 := by
  unfold activeCount deactivateAll
  rw [List.countP_eq_zero]
  intro r hr
  rcases List.mem_map.mp hr with ⟨r0, _, rfl⟩
  by_cases h : r0.isActive <;> simp [h]

theorem activeCount_updateFirstRule_le (rs : RuleStore) (rid : Nat) (b : RuleUpdateBody) :
    activeCount (updateFirstRule rs rid b) ≤ activeCount rs + 1 := by
  induction rs with
  | nil => simp [updateFirstRule, activeCount]
  | cons r rest ih =>
    unfold updateFirstRule
    by_cases h : r.id = rid
    · rw [if_pos h]
      unfold activeCount at *
      rw [List.countP_cons, List.countP_cons]
      by_cases h1 : (applyRuleBody b r).isActive <;> by_cases h2 : r.isActive <;>
        simp [h1, h2] <;> omega
    · rw [if_neg h]
      unfold activeCount at *
      rw [List.countP_cons, List.countP_cons]
      by_cases h2 : r.isActive <;> simp [h2] <;> omega

theorem activeCount_updateFirstRule_not_activating (rs : RuleStore) (rid : Nat)
    (b : RuleUpdateBody) (hb : b.isActive ≠ some true) :
    activeCount (updateFirstRule rs rid b) ≤ activeCount rs := by
  induction rs with
  | nil => simp [updateFirstRule]
  | cons r rest ih =>
    unfold updateFirstRule
    by_cases h : r.id = rid
    · rw [if_pos h]
      unfold activeCount at *
      rw [List.countP_cons, List.countP_cons]
      have hbody : (applyRuleBody b r).isActive = true → r.isActive = true := by
        intro hact
        unfold applyRuleBody at hact
        simp only at hact
        cases hba : b.isActive with
        | none => rw [hba] at hact; simpa using hact
        | some v =>
          cases v with
          | true => exact absurd hba hb
          | false => rw [hba] at hact; simp at hact
      by_cases h1 : (applyRuleBody b r).isActive
      · rw [hbody h1] at *
        simp [h1]
      · by_cases h2 : r.isActive <;> simp [h1, h2]
    · rw [if_neg h]
      unfold activeCount at *
      rw [List.countP_cons, List.countP_cons]
      by_cases h2 : r.isActive <;> simp [h2] <;> omega

theorem activeCount_deleteRule_le (rs : RuleStore) (rid : Nat) :
    activeCount (deleteRule rs rid) ≤ activeCount rs :=
  List.Sublist.countP_le _ (List.eraseP_sublist _)

/-- Each route invocation preserves "at most one active rule". -/
theorem activeCount_applyRuleOp (rs : RuleStore) (op : RuleOp)
    (h : activeCount rs ≤ 1) : activeCount (applyRuleOp rs op) ≤ 1 := by
  cases op with
  | create rid bp decay isActive =>
    unfold applyRuleOp activeCount
    rw [List.countP_append]
    cases isActive with
    | true =>
      rw [if_pos rfl]
      have h0 := activeCount_deactivateAll rs
      unfold activeCount at h0
      simp [h0, List.countP_cons]
    | false =>
      rw [if_neg (by simp)]
      unfold activeCount at h
      simp [List.countP_cons]
      omega
  | update rid b =>
    simp only [applyRuleOp]
    by_cases hb : b.isActive = some true
    · rw [if_pos hb]
      have h1 := activeCount_updateFirstRule_le (deactivateAll rs) rid b
      have h0 := activeCount_deactivateAll rs
      omega
    · rw [if_neg hb]
      have h1 := activeCount_updateFirstRule_not_activating rs rid b hb
      omega
  | delete rid =>
    have h1 := activeCount_deleteRule_le rs rid
    simp only [applyRuleOp]
    omega

theorem activeCount_applyRuleOps (ops : List RuleOp) :
    ∀ rs : RuleStore, activeCount rs ≤ 1 → activeCount (applyRuleOps rs ops) ≤ 1 := by
  induction ops with
  | nil => intro rs h; exact h
  | cons op rest ih =>
    intro rs h
    unfold applyRuleOps
    rw [List.foldl_cons]
    exact ih _ (activeCount_applyRuleOp rs op h)

theorem mem_updateFirstRule {rs : RuleStore} {rid : Nat} {b : RuleUpdateBody}
    {r : DistributionRule} (h : r ∈ updateFirstRule rs rid b) :
    r ∈ rs ∨ ∃ r0 ∈ rs, r0.id = rid ∧ r = applyRuleBody b r0 := by
  induction rs with
  | nil => cases h
  | cons r1 rest ih =>
    unfold updateFirstRule at h
    by_cases h1 : r1.id = rid
    · rw [if_pos h1] at h
      rcases List.mem_cons.mp h with rfl | h2
      · exact Or.inr ⟨r1, List.mem_cons_self .., h1, rfl⟩
      · exact Or.inl (List.mem_cons_of_mem _ h2)
    · rw [if_neg h1] at h
      rcases List.mem_cons.mp h with rfl | h2
      · exact Or.inl (List.mem_cons_self ..)
      · rcases ih h2 with h3 | ⟨r0, h3, h4, h5⟩
        · exact Or.inl (List.mem_cons_of_mem _ h3)
        · exact Or.inr ⟨r0, List.mem_cons_of_mem _ h3, h4, h5⟩

/-- Activating a rule via `PUT` deactivates every other rule: after the
operation no rule except (possibly) the addressed one is active. -/
theorem update_activate_deactivates_others (rs : RuleStore) (rid : Nat)
    (b : RuleUpdateBody) (hb : b.isActive = some true) :
    ∀ r ∈ applyRuleOp rs (.update rid b), r.isActive = true → r.id = rid := by
  intro r hr hact
  simp only [applyRuleOp] at hr
  rw [if_pos hb] at hr
  rcases mem_updateFirstRule hr with h | ⟨r0, h0, h1, h2⟩
  · exfalso
    unfold deactivateAll at h
    rcases List.mem_map.mp h with ⟨r1, _, rfl⟩
    by_cases h2 : r1.isActive <;> simp [h2] at hact
  · rw [h2]
    unfold applyRuleBody
    simpa using h1

/-! ## Service legacy-field synchronization

Embedding of `backend/src/models/Service.ts`: the schema (with the
`status` default `"active"` applied when the document is constructed and the
path is undefined), the `pre("validate")` hook `syncLegacyFields`, and the
schema validation (`name`/`price`/`businessVolume` required, numbers
nonnegative). -/

inductive ServiceStatus
  | active
  | inactive
deriving DecidableEq, Repr

/-- The fields supplied when creating a Service document (absent = `undefined`). -/
structure ServiceInput where
  name : Option String
  price : Option Rat
  businessVolume : Option Rat
  bv : Option Rat
  status : Option ServiceStatus
  isActive : Option Bool
deriving DecidableEq, Repr

/-- The in-memory Service document. -/
structure ServiceDoc where
  name : Option String
  price : Option Rat
  businessVolume : Option Rat
  bv : Option Rat
  status : Option ServiceStatus
  isActive : Option Bool
deriving DecidableEq, Repr

/-- Document construction: mongoose applies schema defaults to undefined
paths. `status` has `default: "active"`; `isActive` has
`default: undefined` and the remaining fields have no default. -/
def constructServiceDoc (i : ServiceInput) : ServiceDoc :=
  { name := i.name
    price := i.price
    businessVolume := i.businessVolume
    bv := i.bv
    status := some (i.status.getD .active)
    isActive := i.isActive }

/-- The `pre("validate")` hook `syncLegacyFields`, line by line:
backfill `businessVolume` from `bv`, backfill `status` from `isActive`,
then re-sync the legacy fields from the canonical ones. -/
def syncLegacyFields (d : ServiceDoc) : ServiceDoc :=
  let d1 := if d.businessVolume = none ∧ d.bv ≠ none then { d with businessVolume := d.bv } else d
  let d2 :=
    if d1.status = none ∧ d1.isActive ≠ none then
      { d1 with status := some (if d1.isActive.getD false then .active else .inactive) }
    else d1
  let d3 := if d2.businessVolume ≠ none then { d2 with bv := d2.businessVolume } else d2
  if d3.status ≠ none then { d3 with isActive := some (d3.status = some .active) } else d3

/-- Schema validation: `name`, `price`, `businessVolume` required;
numeric fields at least 0. -/
def validService (d : ServiceDoc) : Bool :=
  (match d.name with | some nm => nm ≠ "" | none => false) &&
  (match d.price with | some p => 0 ≤ p | none => false) &&
  (match d.businessVolume with | some b => 0 ≤ b | none => false) &&
  (match d.bv with | some b => 0 ≤ b | none => true)

/-- Saving a freshly created document: construct (apply defaults), run the
pre-validate hook, validate. -/
def savedService (i : ServiceInput) : Option ServiceDoc :=
  let d := syncLegacyFields (constructServiceDoc i)
  if validService d then some d else none

/-- C10 exactly as stated, at one input: a validated document has
`bv = businessVolume` and `isActive = (status === "active")`, and when only
the legacy fields are supplied the canonical fields are backfilled from
`bv` and `isActive` before validation. -/
def serviceClaimHolds (i : ServiceInput) : Bool :=
  match savedService i with
  | none => true
  | some d =>
    (d.bv = d.businessVolume) &&
    (d.isActive = some (decide (d.status = some .active))) &&
    (!(i.businessVolume = none && !(i.bv = none)) || (d.businessVolume = i.bv)) &&
    (match i.status, i.isActive with
     | none, some b => d.status = some (if b then ServiceStatus.active else .inactive)
     | _, _ => true)

/-! ## The registration path

`POST /api/auth/register` with a referral code: one `findBinaryPlacement`
call followed by one `UserModel.create`, with no retry loop around either.
`raceRejects k` injects the unique-index rejection a concurrent placement
race would cause on the k-th insert attempt (0-based); the handler only
ever makes attempt 0. -/

structure RegisterOutcome where
  attemptsMade : Nat
  success : Bool
  store : Store
deriving DecidableEq, Repr

def registerWithReferral (s : Store) (sponsorId newId t : Nat) (raceRejects : Nat → Bool) :
    RegisterOutcome :=
  let res := findBinaryPlacement s sponsorId
  match res.1 with
  | .found p pos =>
    if raceRejects 0 then ⟨1, false, res.2⟩
    else ⟨1, true, res.2 ++ [⟨newId, some p, some pos, t⟩]⟩
  | _ => ⟨0, false, res.2⟩

/-! ## BV distribution

The sources provide only the callers of
`distributeBusinessVolumeWithSession` (`lib/bvDistribution.ts` itself is not
in the repository snapshot), so the distribution engine below is modelled
from the spec (§4.2): resolve the single active rule (`NoActiveRule`
otherwise), read the service's BV, walk the purchaser's `parent` chain
upward with the halving percentage schedule, stop at a root or when the
amount rounds to zero in the minimal currency unit, and write one Income
and one IncomeLog row per credited level. The purchase route wrapping it
(`app.post("/api/purchases")` / `composedPOST`) is embedded from the
source: purchase creation, distribution and BV finalization run inside one
`session.withTransaction`, so an error anywhere rolls everything back. -/

structure Income where
  toUser : Nat
  fromUser : Nat
  purchase : Nat
  level : Nat
  amount : Rat
  percentage : Rat
deriving DecidableEq, Repr

structure IncomeLogEntry where
  toUser : Nat
  purchase : Nat
  incomeAmount : Rat
deriving DecidableEq, Repr

structure ServiceRow where
  id : Nat
  businessVolume : Rat
deriving DecidableEq, Repr

structure PurchaseRow where
  id : Nat
  user : Nat
  service : Nat
  bv : Rat
deriving DecidableEq, Repr

structure AppDB where
  users : Store
  services : List ServiceRow
  rules : RuleStore
  purchases : List PurchaseRow
  incomes : List Income
  incomeLogs : List IncomeLogEntry
deriving DecidableEq, Repr

/-- Modelled from the spec: the §4.2 percentage schedule — level 1 pays
`basePercentage` and each later level half of the previous one when
`decayEnabled`; the flat `basePercentage` at every level otherwise. -/
def levelPercentage (bp : Rat) (decay : Bool) (level : Nat) : Rat :=
  if decay then bp / 2 ^ (level - 1) else bp

/-- Modelled from the spec: an amount is skipped — ending the walk — when
it rounds to zero in the currency's minimal unit (one cent). -/
def roundsToZero (amount : Rat) : Bool := round (amount * 100) = 0

def parentOf (s : Store) (uid : Nat) : Option Nat :=
  match s.find? (fun n => n.id = uid) with
  | some n => n.parent
  | none => none

/-- Modelled from the spec: the walk's ancestor chain above a user
(`lib/bvDistribution.ts` is missing from the sources), following `parent`
references upward, level 1 being the immediate parent. The fuel is a
modelling artifact; callers pass the collection size, which bounds any
parent chain. -/
def ancestorChain : Nat → Store → Nat → List Nat
  | 0, _, _ => []
  | fuel + 1, s, uid =>
    match parentOf s uid with
    | some p => p :: ancestorChain fuel s p
    | none => []

inductive DistError
  | noActiveRule
  | serviceNotFound
  | writeFailed
deriving DecidableEq, Repr

structure WalkResult where
  incomes : List Income
  logs : List IncomeLogEntry
  levelsPaid : Nat
deriving DecidableEq, Repr

/-- Modelled from the spec: walk the chain computing
`amount = bv * percentage` per level, stop at the zero-rounding threshold,
write one Income and one IncomeLog per credited ancestor. `failAt = some k`
injects a database write failure at level `k`. -/
def distributeWalk (bp : Rat) (decay : Bool) (bv : Rat) (buyer pid : Nat)
    (failAt : Option Nat) : List Nat → Nat → Except DistError WalkResult
  | [], _ => .ok ⟨[], [], 0⟩
  | a :: rest, level =>
    let pct := levelPercentage bp decay level
    let amount := bv * pct
    if roundsToZero amount then .ok ⟨[], [], 0⟩
    else if failAt = some level then .error .writeFailed
    else
      match distributeWalk bp decay bv buyer pid failAt rest (level + 1) with
      | .error e => .error e
      | .ok tail =>
        .ok ⟨⟨a, buyer, pid, level, amount, pct⟩ :: tail.incomes,
             ⟨a, pid, amount⟩ :: tail.logs,
             tail.levelsPaid + 1⟩

def findActiveRule (rs : RuleStore) : Option DistributionRule :=
  rs.find? (fun r => r.isActive)

def findService (ss : List ServiceRow) (sid : Nat) : Option ServiceRow :=
  ss.find? (fun r => r.id = sid)

structure DistOutcome where
  db : AppDB
  bv : Rat
  logsCreated : Nat
  levelsPaid : Nat
deriving DecidableEq, Repr

/-- Modelled from the spec: `Distribute(purchaserId, bv, purchaseId)` —
resolve the active rule, resolve the service BV, walk the ancestor chain
and append the ledger rows. -/
def distributeBusinessVolume (db : AppDB) (userId serviceId purchaseId : Nat)
    (failAt : Option Nat) : Except DistError DistOutcome :=
  match findActiveRule db.rules with
  | none => .error .noActiveRule
  | some rule =>
    match findService db.services serviceId with
    | none => .error .serviceNotFound
    | some svc =>
      let chain := ancestorChain db.users.length db.users userId
      match distributeWalk rule.basePercentage rule.decayEnabled svc.businessVolume
          userId purchaseId failAt chain 1 with
      | .error e => .error e
      | .ok w =>
        .ok ⟨{ db with
                incomes := db.incomes ++ w.incomes
                incomeLogs := db.incomeLogs ++ w.logs },
             svc.businessVolume, w.incomes.length, w.levelsPaid⟩

/-- The purchase route's transaction body (from the source): create the
purchase with the placeholder BV 0, distribute, then finalize the
purchase's BV — all against the transaction's tentative state. -/
def purchaseTransactionBody (db : AppDB) (userId serviceId purchaseId : Nat)
    (failAt : Option Nat) : Except DistError AppDB :=
  let db1 := { db with purchases := db.purchases ++ [⟨purchaseId, userId, serviceId, 0⟩] }
  match distributeBusinessVolume db1 userId serviceId purchaseId failAt with
  | .error e => .error e
  | .ok out =>
    .ok { out.db with
          purchases := out.db.purchases.map
            (fun pr => if pr.id = purchaseId then { pr with bv := out.bv } else pr) }

/-- Embeds `session.withTransaction` around the body: on any error all writes are
rolled back and the pre-transaction state is the observable one; the route
then reports failure. -/
def purchasesPOST (db : AppDB) (userId serviceId purchaseId : Nat) (failAt : Option Nat) :
    AppDB × Bool :=
  match purchaseTransactionBody db userId serviceId purchaseId failAt with
  | .ok db2 => (db2, true)
  | .error _ => (db, false)

/-! ## Claim theorems -/

/-- C9: `findBinaryPlacement` terminates on every finite node store,
including stores with malformed back-edges or cycles: the visited set keyed
by node identity admits each node at most once, so the modelled loop (whose
fuel is `placementFuel`, an upper bound on the possible iterations) always
reaches one of the code's outcomes — a placement, the safe-limit abort, or
the trailing error — and never runs out of fuel. -/
theorem c9_placement_terminates_on_every_store (s : Store) (sp : Nat) :
    (findBinaryPlacement s sp).1 ≠ .outOfFuel :=
  findBinaryPlacement_terminates s sp

/-- C5: under `_id` uniqueness, `findBinaryPlacement` either returns a slot
or fails with the exceeded-safe-limit error (raised exactly when the
visited count exceeds `MAX_VISITS`); the only other `throw` in the
function — `Unable to find binary placement` — is unreachable, so no other
failure outcome exists. -/
theorem c5_only_failure_is_safe_limit {s : Store} (h : IdsNodup s) (sp : Nat) :
    (findBinaryPlacement s sp).1 = .limitExceeded ∨
      ∃ p pos, (findBinaryPlacement s sp).1 = .found p pos := by
  have h1 := findBinaryPlacement_terminates s sp
  have h2 := findBinaryPlacement_no_noPlacement h sp
  cases hres : (findBinaryPlacement s sp).1 with
  | found p pos => exact Or.inr ⟨p, pos, rfl⟩
  | limitExceeded => exact Or.inl rfl
  | noPlacement => exact absurd hres h2
  | outOfFuel => exact absurd hres h1

/-- The C3 scenario store: sponsor 0 has both child slots occupied (1 left,
2 right); the left child 1 has only a right child 3, so its left slot is
the shallowest open slot. -/
def scenarioStore : Store :=
  [⟨0, none, none, 0⟩, ⟨1, some 0, some .left, 1⟩, ⟨2, some 0, some .right, 2⟩,
   ⟨3, some 1, some .right, 3⟩]

/-- Witness for C5 at a concrete store. -/
theorem c5_only_failure_is_safe_limit_witness :
    IdsNodup scenarioStore ∧
      ((findBinaryPlacement scenarioStore 0).1 = .limitExceeded ∨
        ∃ p pos, (findBinaryPlacement scenarioStore 0).1 = .found p pos) :=
  ⟨by decide, c5_only_failure_is_safe_limit (by decide) 0⟩

/-- C3: whenever the breadth-first level-order scan (shallowest level
first, nodes scanned in order, left slot checked before right —
`levelSearch`) finds an open slot within the traversal bound,
`findBinaryPlacement` returns exactly that slot. Stated for stores with no
pending legacy backfill. -/
theorem c3_returns_shallowest_leftmost_slot {s : Store} (hs : Positioned s)
    (sp f2 p : Nat) (pos : BinaryPosition)
    (hfound : levelSearch s sp f2 = .found p pos) :
    (findBinaryPlacement s sp).1 = .found p pos := by
  have hterm := findBinaryPlacement_terminates s sp
  have hno : levelSearchAux f2 s [] [sp] [] ≠ .outOfFuel := by
    unfold levelSearch at hfound
    rw [hfound]
    intro hc
    cases hc
  have h1 := runAux_eq_levelSearchAux f2 s [] [sp] []
    (max f2 (placementFuel s)) hs (le_max_left _ _) hno
  unfold levelSearch at hfound
  rw [hfound] at h1
  rw [List.append_nil] at h1
  have h2 := runAux_fuel_stable (placementFuel s) s [sp] []
    (max f2 (placementFuel s)) (le_max_right _ _) hterm
  unfold findBinaryPlacement
  rw [← h2]
  exact h1

/-- Witness for C3: on the scenario store the placement is the left child's
left slot — node 1, position left — not the right child's right slot. -/
theorem c3_returns_shallowest_leftmost_slot_witness :
    Positioned scenarioStore ∧ levelSearch scenarioStore 0 12 = .found 1 .left ∧
      (findBinaryPlacement scenarioStore 0).1 = .found 1 .left :=
  ⟨by decide, by decide, c3_returns_shallowest_leftmost_slot (by decide) 0 12 1 .left (by decide)⟩

/-- C6: processing a parent performs exactly the spec-level backfill
(`backfillAssignments`, each write a `setPositionFirst` — the conditional
update guarded on `position == null`): the earliest-created unpositioned
child goes to `left` only when no child occupies `left`, the next to
`right` only when no child occupies `right`; at most two unpositioned
children are ever assigned, the targets are the first one or two entries of
the creation-ordered unpositioned list, and every other member — including
any third unpositioned child — is untouched. -/
theorem c6_backfill_caps_at_two (s : Store) (p : Nat) :
    (processNode s p).store = applyAssignments s (backfillAssignments s p) ∧
    (backfillAssignments s p).length ≤ 2 ∧
    (backfillAssignments s p).map Prod.fst
      = (unpositionedOf (childrenOf s p)).take (backfillAssignments s p).length ∧
    (childrenOf s p).Sorted (fun a b => a.createdAt ≤ b.createdAt) ∧
    (lastChildWith (childrenOf s p) .left ≠ none →
      ∀ q ∈ backfillAssignments s p, q.2 ≠ BinaryPosition.left) ∧
    (lastChildWith (childrenOf s p) .right ≠ none →
      ∀ q ∈ backfillAssignments s p, q.2 ≠ BinaryPosition.right) ∧
    (∀ n ∈ s, n.id ∉ (backfillAssignments s p).map Prod.fst →
      n ∈ (processNode s p).store) := by
  refine ⟨processNode_store_eq_applyAssignments s p, backfillAssignments_length_le s p,
    backfillAssignments_targets s p, childrenOf_sorted s p,
    backfillAssignments_left_guard s p, backfillAssignments_right_guard s p, ?_⟩
  intro n hn hid
  rw [processNode_store_eq_applyAssignments s p]
  exact mem_applyAssignments_of_not_target hn hid

/-- A legacy store: parent 0 with three unpositioned children (created in
the order 2, 3, 1). -/
def legacyStore : Store :=
  [⟨0, none, none, 0⟩, ⟨1, some 0, none, 3⟩, ⟨2, some 0, none, 1⟩, ⟨3, some 0, none, 2⟩]

/-- Witness for C6 on the legacy store: children 2 and 3 (the two
earliest-created unpositioned children) are assigned left and right, the
third is untouched. -/
theorem c6_backfill_caps_at_two_witness :
    ((processNode legacyStore 0).store
        = applyAssignments legacyStore (backfillAssignments legacyStore 0) ∧
      (backfillAssignments legacyStore 0).length ≤ 2 ∧
      (backfillAssignments legacyStore 0).map Prod.fst
        = (unpositionedOf (childrenOf legacyStore 0)).take
            (backfillAssignments legacyStore 0).length ∧
      (childrenOf legacyStore 0).Sorted (fun a b => a.createdAt ≤ b.createdAt) ∧
      (lastChildWith (childrenOf legacyStore 0) .left ≠ none →
        ∀ q ∈ backfillAssignments legacyStore 0, q.2 ≠ BinaryPosition.left) ∧
      (lastChildWith (childrenOf legacyStore 0) .right ≠ none →
        ∀ q ∈ backfillAssignments legacyStore 0, q.2 ≠ BinaryPosition.right) ∧
      (∀ n ∈ legacyStore, n.id ∉ (backfillAssignments legacyStore 0).map Prod.fst →
        n ∈ (processNode legacyStore 0).store)) ∧
      backfillAssignments legacyStore 0 = [(2, .left), (3, .right)] :=
  ⟨c6_backfill_caps_at_two legacyStore 0, by decide⟩

/-- C7: starting from a collection satisfying the binary invariant, any
number of sequential placements under one sponsor preserves it — every
parent keeps at most one left and at most one right child — because each
insert goes through the `(parent, position)` partial unique index; and
since that index excludes null values, inserting a root member (null
parent) is never rejected, so root members may coexist. -/
theorem c7_at_most_one_child_per_slot (s : Store) (sp : Nat)
    (newcomers : List (Nat × Nat))
    (hnd : IdsNodup s) (hinv : AtMostOnePerSlot s)
    (hnodup : (newcomers.map Prod.fst).Nodup)
    (hfresh : ∀ i ∈ newcomers.map Prod.fst, i ∉ s.map (fun n => n.id)) :
    AtMostOnePerSlot (placeMany s sp newcomers) ∧
      ∀ (st : Store) (n : MemberNode), n.parent = none →
        insertUser st n = some (st ++ [n]) := by
  refine ⟨placeMany_invariants sp newcomers s hnd hinv hnodup hfresh, ?_⟩
  intro st n hpar
  unfold insertUser uniqueIndexViolated
  rw [hpar]
  cases n.position <;> simp

/-- The root-only store and three sequential registrations used as the C7
witness. -/
def rootStore : Store := [⟨0, none, none, 0⟩]

/-- Witness for C7: three placements under sponsor 0 on a fresh store. -/
theorem c7_at_most_one_child_per_slot_witness :
    IdsNodup rootStore ∧ AtMostOnePerSlot rootStore ∧
      (AtMostOnePerSlot (placeMany rootStore 0 [(1, 1), (2, 2), (3, 3)]) ∧
        ∀ (st : Store) (n : MemberNode), n.parent = none →
          insertUser st n = some (st ++ [n])) := by
  refine ⟨by decide, ?_, ?_⟩
  · intro p pos
    have : slotCount rootStore p pos ≤ 1 := by
      unfold slotCount rootStore
      rw [List.countP_cons, List.countP_nil]
      simp
    exact this
  · apply c7_at_most_one_child_per_slot rootStore 0 [(1, 1), (2, 2), (3, 3)]
      (by decide) ?_ (by decide) (by decide)
    intro p pos
    unfold slotCount rootStore
    rw [List.countP_cons, List.countP_nil]
    simp

/-- C4: starting from a rule store with at most one active rule (in
particular the empty store), any sequence of create / activate / delete
route invocations leaves at most one `DistributionRule` with
`isActive = true`; and the activation update, as a single operation, first
deactivates every active rule, so afterwards no rule other than the
addressed one is active. -/
theorem c4_single_active_rule (ops : List RuleOp) (rs : RuleStore)
    (hstart : activeCount rs ≤ 1) :
    activeCount (applyRuleOps rs ops) ≤ 1 ∧
      ∀ (rs2 : RuleStore) (rid : Nat) (b : RuleUpdateBody), b.isActive = some true →
        ∀ r ∈ applyRuleOp rs2 (.update rid b), r.isActive = true → r.id = rid :=
  ⟨activeCount_applyRuleOps ops rs hstart,
   fun rs2 rid b hb => update_activate_deactivates_others rs2 rid b hb⟩

/-- Witness for C4: create an active rule, create an inactive one, activate
the second, delete the first — starting from the empty store. -/
theorem c4_single_active_rule_witness :
    activeCount [] ≤ 1 ∧
      (activeCount (applyRuleOps []
          [.create 1 (1/10) true true, .create 2 (1/5) false false,
           .update 2 ⟨none, none, some true⟩, .delete 1]) ≤ 1 ∧
        ∀ (rs2 : RuleStore) (rid : Nat) (b : RuleUpdateBody), b.isActive = some true →
          ∀ r ∈ applyRuleOp rs2 (.update rid b), r.isActive = true → r.id = rid) :=
  ⟨by decide, c4_single_active_rule _ [] (by decide)⟩

/-- A service created with only the legacy fields: `bv = 5` supplied,
`businessVolume` absent, `isActive = false` supplied, `status` absent. -/
def legacyOnlyInput : ServiceInput :=
  ⟨some "basic", some 10, none, some 5, none, some false⟩

/-- C10 counterexample: on `legacyOnlyInput` the claim fails. The schema
default sets `status := "active"` at construction — before the
`pre("validate")` hook runs — so the hook's `!doc.status` guard never
fires: `status` is not backfilled from the supplied `isActive = false`,
and the final sync overwrites `isActive` to `true`. -/
theorem c10_counterexample_legacy_only_input :
    serviceClaimHolds legacyOnlyInput = false := by decide

/-- C10 amended: every document that passes validation has
`bv = businessVolume` and `isActive = (status === "active")`, with `status`
always present; `businessVolume` is backfilled from legacy `bv` when
absent; but `status` is never backfilled from legacy `isActive` — when
`status` is not supplied the schema default makes it `"active"` regardless
of `isActive`, which is then overwritten to match. -/
theorem c10_sync_except_status_backfill (i : ServiceInput) (d : ServiceDoc)
    (hsave : savedService i = some d) :
    d.bv = d.businessVolume ∧
    d.isActive = some (decide (d.status = some ServiceStatus.active)) ∧
    d.status ≠ none ∧
    (i.businessVolume = none → i.bv ≠ none → d.businessVolume = i.bv) ∧
    (i.status = none → d.status = some .active) := by
  unfold savedService at hsave
  by_cases hvalid : validService (syncLegacyFields (constructServiceDoc i)) = true
  · rw [if_pos hvalid] at hsave
    injection hsave with hsave
    subst hsave
    rcases hibv : i.businessVolume with _ | b <;>
      rcases hilegacy : i.bv with _ | lb <;>
        rcases hist : i.status with _ | st <;>
          simp only [syncLegacyFields, constructServiceDoc, hibv, hilegacy, hist] at hvalid ⊢ <;>
            simp [validService] at hvalid ⊢
  · rw [if_neg hvalid] at hsave
    cases hsave

/-- Witness for the amended C10 at `legacyOnlyInput` (where
`savedService` succeeds with `businessVolume = bv = 5`,
`status = "active"`, `isActive = true`). -/
theorem c10_sync_except_status_backfill_witness :
    savedService legacyOnlyInput
        = some ⟨some "basic", some 10, some 5, some 5, some .active, some true⟩ ∧
      ((some 5 : Option Rat) = some 5 ∧
        (some true : Option Bool) = some (decide ((some ServiceStatus.active : Option ServiceStatus)
          = some ServiceStatus.active)) ∧
        (some ServiceStatus.active : Option ServiceStatus) ≠ none ∧
        (legacyOnlyInput.businessVolume = none → legacyOnlyInput.bv ≠ none →
          (some 5 : Option Rat) = legacyOnlyInput.bv) ∧
        (legacyOnlyInput.status = none →
          (some ServiceStatus.active : Option ServiceStatus) = some .active)) := by
  have hsave : savedService legacyOnlyInput
      = some ⟨some "basic", some 10, some 5, some 5, some .active, some true⟩ := by decide
  have h := c10_sync_except_status_backfill legacyOnlyInput
    ⟨some "basic", some 10, some 5, some 5, some .active, some true⟩ hsave
  exact ⟨hsave, h⟩

/-- The store backing the C8 scenario: a single sponsor. -/
def c8Store : Store := [⟨0, none, none, 0⟩]

/-- C8 counterexample: reject only the very first insert attempt (any
retry — attempt index 1 or later — would succeed). Under the claim the
registration would retry and succeed; the handler instead makes exactly
one attempt and surfaces the failure. -/
theorem c8_counterexample_no_retry :
    (registerWithReferral c8Store 0 9 5 (fun k => k == 0)).success = false ∧
      (registerWithReferral c8Store 0 9 5 (fun k => k == 0)).attemptsMade = 1 := by
  decide

/-- C8 amended: the registration path makes exactly one placement + insert
attempt: its outcome depends only on the first attempt's fate, a first
uniqueness rejection is surfaced immediately as a failed registration, and
no retry is ever performed. -/
theorem c8_register_never_retries (s : Store) (sp newId t : Nat)
    (rejects rejects2 : Nat → Bool) :
    (rejects 0 = rejects2 0 →
      registerWithReferral s sp newId t rejects
        = registerWithReferral s sp newId t rejects2) ∧
    (rejects 0 = true → (registerWithReferral s sp newId t rejects).success = false) ∧
    (registerWithReferral s sp newId t rejects).attemptsMade ≤ 1 := by
  cases hr1 : (findBinaryPlacement s sp).1 with
  | found p pos =>
    simp only [registerWithReferral, hr1]
    refine ⟨?_, ?_, ?_⟩
    · intro heq
      rw [heq]
    · intro h0
      rw [if_pos h0]
    · by_cases h0 : rejects 0 = true
      · rw [if_pos h0]
      · rw [if_neg h0]
  | limitExceeded => simp [registerWithReferral, hr1]
  | noPlacement => simp [registerWithReferral, hr1]
  | outOfFuel => simp [registerWithReferral, hr1]

/-- Witness for the amended C8: with every attempt rejected, registration
fails after at most one attempt. -/
theorem c8_register_never_retries_witness :
    (registerWithReferral c8Store 0 9 5 (fun _ => true)).success = false ∧
      (registerWithReferral c8Store 0 9 5 (fun _ => true)).attemptsMade ≤ 1 :=
  ⟨(c8_register_never_retries c8Store 0 9 5 (fun _ => true) (fun _ => true)).2.1 rfl,
   (c8_register_never_retries c8Store 0 9 5 (fun _ => true) (fun _ => true)).2.2⟩

/-- C1: whenever the distribution walk inside the purchase transaction
encounters a write failure (injected at any ancestor level), the whole
transaction aborts: the observable database equals the pre-transaction
state, so — for a fresh purchase id — zero Income rows exist for that
purchase and no purchase row (in particular none with a finalized BV)
persists. -/
theorem c1_distribution_is_atomic (db : AppDB) (uid sid pid : Nat) (failAt : Option Nat)
    (e : DistError)
    (hfresh1 : ∀ inc ∈ db.incomes, inc.purchase ≠ pid)
    (hfresh2 : ∀ pr ∈ db.purchases, pr.id ≠ pid)
    (herr : purchaseTransactionBody db uid sid pid failAt = .error e) :
    (purchasesPOST db uid sid pid failAt).1 = db ∧
    (purchasesPOST db uid sid pid failAt).2 = false ∧
    (∀ inc ∈ (purchasesPOST db uid sid pid failAt).1.incomes, inc.purchase ≠ pid) ∧
    (∀ pr ∈ (purchasesPOST db uid sid pid failAt).1.purchases, pr.id ≠ pid) := by
  unfold purchasesPOST
  simp only [herr]
  exact ⟨trivial, trivial, hfresh1, hfresh2⟩

/-- A five-ancestor chain above purchaser 0 (0 → 1 → 2 → 3 → 4 → 5, root 5),
one service of BV 100 and one active rule. -/
def c1ChainUsers : Store :=
  [⟨0, some 1, some .left, 0⟩, ⟨1, some 2, some .left, 1⟩, ⟨2, some 3, some .left, 2⟩,
   ⟨3, some 4, some .left, 3⟩, ⟨4, some 5, some .left, 4⟩, ⟨5, none, none, 5⟩]

def c1DB : AppDB :=
  { users := c1ChainUsers, services := [⟨0, 100⟩], rules := [⟨0, 1, true, true⟩],
    purchases := [], incomes := [], incomeLogs := [] }

theorem c1_level1_not_zero : roundsToZero (100 * levelPercentage 1 true 1) = false := by
  norm_num [roundsToZero, levelPercentage, round_eq]

theorem c1_level2_not_zero : roundsToZero (100 * levelPercentage 1 true 2) = false := by
  norm_num [roundsToZero, levelPercentage, round_eq]

theorem c1_level3_not_zero : roundsToZero (100 * levelPercentage 1 true 3) = false := by
  norm_num [roundsToZero, levelPercentage, round_eq]

/-- With a write failure injected at the 3rd ancestor of the 5-ancestor
chain, the walk — and with it the whole transaction body — fails. -/
theorem c1_txn_fails_at_level3 :
    purchaseTransactionBody c1DB 0 0 77 (some 3) = .error .writeFailed := by
  have hw : distributeWalk 1 true 100 0 77 (some 3) [1, 2, 3, 4, 5] 1
      = .error .writeFailed := by
    simp only [distributeWalk]
    simp [c1_level1_not_zero, c1_level2_not_zero, c1_level3_not_zero]
  simp [purchaseTransactionBody, distributeBusinessVolume, findActiveRule, findService,
    c1DB, c1ChainUsers, ancestorChain, parentOf, hw]

/-- Witness for C1: the concrete aborted purchase on the 5-ancestor chain
with the 3rd write failing. -/
theorem c1_distribution_is_atomic_witness :
    purchaseTransactionBody c1DB 0 0 77 (some 3) = .error .writeFailed ∧
      ((purchasesPOST c1DB 0 0 77 (some 3)).1 = c1DB ∧
        (purchasesPOST c1DB 0 0 77 (some 3)).2 = false ∧
        (∀ inc ∈ (purchasesPOST c1DB 0 0 77 (some 3)).1.incomes, inc.purchase ≠ 77) ∧
        (∀ pr ∈ (purchasesPOST c1DB 0 0 77 (some 3)).1.purchases, pr.id ≠ 77)) :=
  ⟨c1_txn_fails_at_level3,
   c1_distribution_is_atomic c1DB 0 0 77 (some 3) .writeFailed
     (by intro inc h; simp [c1DB] at h) (by intro pr h; simp [c1DB] at h)
     c1_txn_fails_at_level3⟩

/-- A six-ancestor chain above purchaser 0 (root 6). -/
def chain6Users : Store :=
  [⟨0, some 1, some .left, 0⟩, ⟨1, some 2, some .left, 1⟩, ⟨2, some 3, some .left, 2⟩,
   ⟨3, some 4, some .left, 3⟩, ⟨4, some 5, some .left, 4⟩, ⟨5, some 6, some .left, 5⟩,
   ⟨6, none, none, 6⟩]

/-- One service of BV `bv` and a single active rule `(bp, decay)` over the
six-ancestor chain. -/
def chain6DB (bv bp : Rat) (decay : Bool) : AppDB :=
  { users := chain6Users, services := [⟨0, bv⟩], rules := [⟨0, bp, decay, true⟩],
    purchases := [], incomes := [], incomeLogs := [] }

/-- The Income amounts recorded by a distribution outcome. -/
def distAmounts (r : Except DistError DistOutcome) : Option (List Rat) :=
  match r with
  | .ok out => some (out.db.incomes.map (fun inc => inc.amount))
  | .error _ => none

/-- The `levelsPaid` counter of a distribution outcome. -/
def distLevelsPaid (r : Except DistError DistOutcome) : Option Nat :=
  match r with
  | .ok out => some out.levelsPaid
  | .error _ => none

/-- C2: on the six-ancestor chain under the active rule
`basePercentage = 0.10, decayEnabled = true`, the per-level amounts are
BV×0.10, BV×0.05, BV×0.025, BV×0.0125, BV×0.00625, BV×0.003125 (each level
half the previous), the Income rows sum to BV×(schedule sum) = BV×0.196875,
and `levelsPaid = 6` when every amount is above the zero-rounding
threshold; with `decayEnabled = false` every level instead receives the
flat `basePercentage`. -/
theorem c2_decay_schedule (bv bp : Rat)
    (hdecay : ∀ level, 1 ≤ level → level ≤ 6 →
      roundsToZero (bv * levelPercentage (1/10) true level) = false)
    (hflat : roundsToZero (bv * bp) = false) :
    (distAmounts (distributeBusinessVolume (chain6DB bv (1/10) true) 0 0 77 none)
        = some [bv * (1/10), bv * (1/20), bv * (1/40), bv * (1/80), bv * (1/160),
          bv * (1/320)]) ∧
    ((distAmounts (distributeBusinessVolume (chain6DB bv (1/10) true) 0 0 77 none)).map
        List.sum = some (bv * (63/320))) ∧
    (distLevelsPaid (distributeBusinessVolume (chain6DB bv (1/10) true) 0 0 77 none)
        = some 6) ∧
    (distAmounts (distributeBusinessVolume (chain6DB bv bp false) 0 0 77 none)
        = some (List.replicate 6 (bv * bp))) ∧
    (distLevelsPaid (distributeBusinessVolume (chain6DB bv bp false) 0 0 77 none)
        = some 6) := by
  obtain h1 := hdecay 1 (by norm_num) (by norm_num)
  obtain h2 := hdecay 2 (by norm_num) (by norm_num)
  obtain h3 := hdecay 3 (by norm_num) (by norm_num)
  obtain h4 := hdecay 4 (by norm_num) (by norm_num)
  obtain h5 := hdecay 5 (by norm_num) (by norm_num)
  obtain h6 := hdecay 6 (by norm_num) (by norm_num)
  have hfl : ∀ level : Nat, roundsToZero (bv * levelPercentage bp false level) = false := by
    intro level
    have h : levelPercentage bp false level = bp := by simp [levelPercentage]
    rw [h]
    exact hflat
  have hrule : findActiveRule (chain6DB bv (1/10) true).rules
      = some ⟨0, 1/10, true, true⟩ := rfl
  have hsvc : findService (chain6DB bv (1/10) true).services 0 = some ⟨0, bv⟩ := rfl
  have hchain : ancestorChain (chain6DB bv (1/10) true).users.length
      (chain6DB bv (1/10) true).users 0 = [1, 2, 3, 4, 5, 6] := rfl
  have hrule2 : findActiveRule (chain6DB bv bp false).rules
      = some ⟨0, bp, false, true⟩ := rfl
  have hsvc2 : findService (chain6DB bv bp false).services 0 = some ⟨0, bv⟩ := rfl
  have hchain2 : ancestorChain (chain6DB bv bp false).users.length
      (chain6DB bv bp false).users 0 = [1, 2, 3, 4, 5, 6] := rfl
  refine ⟨?_, ?_, ?_, ?_, ?_⟩
  · simp only [distributeBusinessVolume, hrule, hsvc, hchain]
    simp only [distributeWalk, Nat.reduceAdd]
    simp only [h1, h2, h3, h4, h5, h6]
    simp [distAmounts, levelPercentage]
    norm_num
    rfl
  · simp only [distributeBusinessVolume, hrule, hsvc, hchain]
    simp only [distributeWalk, Nat.reduceAdd]
    simp only [h1, h2, h3, h4, h5, h6]
    simp [distAmounts, levelPercentage, chain6DB]
    norm_num
    ring
  · simp only [distributeBusinessVolume, hrule, hsvc, hchain]
    simp only [distributeWalk, Nat.reduceAdd]
    simp only [h1, h2, h3, h4, h5, h6]
    simp [distLevelsPaid]
  · simp only [distributeBusinessVolume, hrule2, hsvc2, hchain2]
    simp only [distributeWalk, Nat.reduceAdd]
    simp only [hfl]
    simp [distAmounts, chain6DB, levelPercentage]
  · simp only [distributeBusinessVolume, hrule2, hsvc2, hchain2]
    simp only [distributeWalk, Nat.reduceAdd]
    simp only [hfl]
    simp [distLevelsPaid]

/-- Witness for C2 at BV = 100 and flat percentage 1/10. -/
theorem c2_decay_schedule_witness :
    (∀ level, 1 ≤ level → level ≤ 6 →
      roundsToZero ((100 : Rat) * levelPercentage (1/10) true level) = false) ∧
    roundsToZero ((100 : Rat) * (1/10)) = false ∧
    (distAmounts (distributeBusinessVolume (chain6DB 100 (1/10) true) 0 0 77 none)
        = some [100 * (1/10), 100 * (1/20), 100 * (1/40), 100 * (1/80), 100 * (1/160),
          100 * (1/320)]) ∧
    ((distAmounts (distributeBusinessVolume (chain6DB 100 (1/10) true) 0 0 77 none)).map
        List.sum = some (100 * (63/320))) ∧
    (distLevelsPaid (distributeBusinessVolume (chain6DB 100 (1/10) true) 0 0 77 none)
        = some 6) ∧
    (distAmounts (distributeBusinessVolume (chain6DB 100 (1/10) false) 0 0 77 none)
        = some (List.replicate 6 (100 * (1/10)))) ∧
    (distLevelsPaid (distributeBusinessVolume (chain6DB 100 (1/10) false) 0 0 77 none)
        = some 6) := by
  have hdec : ∀ level, 1 ≤ level → level ≤ 6 →
      roundsToZero ((100 : Rat) * levelPercentage (1/10) true level) = false := by
    intro level hl hu
    interval_cases level <;> norm_num [roundsToZero, levelPercentage, round_eq]
  have hfl : roundsToZero ((100 : Rat) * (1/10)) = false := by
    norm_num [roundsToZero, round_eq]
  obtain ⟨a1, a2, a3, a4, a5⟩ := c2_decay_schedule 100 (1/10) hdec hfl
  exact ⟨hdec, hfl, a1, a2, a3, a4, a5⟩

end ReferGrow
